import Mathlib

/-!
Verification development for the cut-search core of the circuit-knitting
toolbox.  The Python sources embedded here are:

* `circuit_knitting/cutting/cut_finding/best_first_search.py`
  (`BestFirstPriorityQueue`, `BestFirstSearch`),
* `circuit_knitting/cutting/cut_finding/cut_optimization.py`
  (`CutOptimization`, `cut_optimization_next_state_func`,
  `max_wire_cuts_circuit`, `max_wire_cuts_gamma`),
* `circuit_knitting/cutting/cut_finding/LO_gate_cut_optimizer/circuit_interface.py`
  (`SimpleGateList.sortOrder`, `NameToIDMap`).

Python numeric costs are tuples compared lexicographically; they are embedded
as `Lex (ℚ × WithTop ℚ)` (the second slot may be `np.inf`).  The search state
type (`DisjointSubcircuitsState`) is treated as an abstract type parameter,
since the engine never inspects states beyond the supplied callbacks.
-/

namespace CKT

/-- Cost values `(gamma, width)`: Python tuples of numerics compared
lexicographically, with `np.inf` available in the second slot. -/
abbrev Cost : Type := Lex (ℚ × WithTop ℚ)

/-- Build a cost tuple. -/
def mkCost (g : ℚ) (w : WithTop ℚ) : Cost := toLex (g, w)

/-- An entry of `BestFirstPriorityQueue`: the tuple
`(cost, -depth, random_num, seq_count, state)` pushed by `put`. -/
structure PQEntry (σ : Type) where
  cost : Cost
  depth : ℕ
  rand : ℚ
  seq : ℕ
  state : σ
deriving DecidableEq

/-- The heap key of an entry: `(cost, -depth, rand, seq)` compared
lexicographically, exactly the prefix of the Python tuple that `heapq`
compares (the `seq` component is unique, so the state is never compared). -/
def PQEntry.key {σ : Type} (e : PQEntry σ) : Lex (Cost × Lex (ℤ × Lex (ℚ × ℕ))) :=
  toLex (e.cost, toLex ((-(e.depth : ℤ)), toLex (e.rand, e.seq)))

/-- Pop the minimum-key entry from the queue, returning it together with the
remaining entries.  This models `heapq.heappop` on the list of pushed tuples:
the entry returned is the one with the least `(cost, -depth, rand, seq)` key. -/
def popMin {σ : Type} : List (PQEntry σ) → Option (PQEntry σ × List (PQEntry σ))
  | [] => none
  | e :: rest =>
    match popMin rest with
    | none => some (e, [])
    | some (m, rest2) =>
      if e.key ≤ m.key then some (e, rest) else some (m, e :: rest2)

/-- The optimization settings consumed by the engine
(`OptimizationSettings`); the engine reads `get_seed` and
`get_max_backjumps`, the driver additionally reads `get_max_gamma` and
`get_cut_search_groups`. -/
structure OptimizationSettings where
  max_gamma : Option ℚ
  max_backjumps : Option ℕ
  seed : Option ℕ
  cut_search_groups : List String

/-- Deterministic model of `np.random.default_rng(seed).random()`:
the numpy generator is external code whose relevant property is that it is a
pure stream of numbers in `[0, 1)` determined by the seed; it is embedded as
an explicit seed-indexed stream (a fixed linear-congruential style hash). -/
def randomStream (seed : Option ℕ) : ℕ → ℚ :=
  fun n => mkRat (((seed.getD 0 + 1) * 9301 + n * 49297) % 233280) 233280

/-- The bundle of search-space callbacks (`SearchFunctions`).  The
`mincost_bound_func`, when present, depends only on the fixed `func_args` of
a run, so it is embedded as the value it returns. -/
structure SearchFuncs (σ : Type) where
  cost_func : σ → Cost
  next_state_func : σ → List σ
  goal_state_func : σ → Bool
  upperbound_cost_func : Option (σ → Cost)
  mincost_bound_func : Option (Option Cost)

/-- Static configuration of a `BestFirstSearch` instance, as set up by its
`__init__`: the callbacks, the `stop_at_first_min` flag, `max_backjumps`,
and the seeded random stream of its `BestFirstPriorityQueue`. -/
structure EngineCfg (σ : Type) where
  funcs : SearchFuncs σ
  stop_at_first_min : Bool
  max_backjumps : Option ℕ
  rng : ℕ → ℚ

/-- Build an engine from settings, as `BestFirstSearch.__init__` does:
`seed = settings.get_seed`, `max_backjumps = settings.get_max_backjumps`,
and a priority queue whose generator is seeded with the seed. -/
def mkEngineCfg {σ : Type} (funcs : SearchFuncs σ)
    (settings : OptimizationSettings) (stop : Bool) : EngineCfg σ :=
  ⟨funcs, stop, settings.max_backjumps, randomStream settings.seed⟩

/-- Mutable state of a `BestFirstSearch` instance: the priority queue (with
the `itertools.count` push counter and the position in the random stream),
the two cost bounds, the `min_reached` flag, the four statistics counters,
and the penultimate-stats snapshot. -/
structure EngineState (σ : Type) where
  pqueue : List (PQEntry σ)
  uniqueCounter : ℕ
  rngIndex : ℕ
  upperbound_cost : Option Cost
  mincost_bound : Option Cost
  min_reached : Bool
  num_states_visited : ℕ
  num_next_states : ℕ
  num_enqueues : ℕ
  num_backjumps : ℕ
  penultimate_stats : Option (ℕ × ℕ × ℕ × ℕ)
deriving DecidableEq

/-- The freshly constructed engine state (`BestFirstSearch.__init__`). -/
def engineInit0 (σ : Type) : EngineState σ :=
  ⟨[], 0, 0, none, none, false, 0, 0, 0, 0, none⟩

/-- The statistics array of `get_stats`: `(num_states_visited,
num_next_states, num_enqueues, num_backjumps)`. -/
def engineStats {σ : Type} (st : EngineState σ) : ℕ × ℕ × ℕ × ℕ :=
  (st.num_states_visited, st.num_next_states, st.num_enqueues, st.num_backjumps)

/-- The `minimum_reached` accessor. -/
def minimumReached {σ : Type} (st : EngineState σ) : Bool := st.min_reached

/-- The pruning test of `BestFirstSearch.put`:
`upperbound_cost is None or cost <= upperbound_cost`. -/
def keepCost (ub : Option Cost) (c : Cost) : Bool :=
  match ub with
  | none => true
  | some u => decide (c ≤ u)

/-- One `BestFirstPriorityQueue.put`: push the tuple
`(cost, -depth, random_gen.random(), next(unique), state)`, advancing the
random stream and the push counter. -/
def pqueuePut {σ : Type} (cfg : EngineCfg σ) (st : EngineState σ) (s : σ)
    (depth : ℕ) (cost : Cost) : EngineState σ :=
  { st with
    pqueue := st.pqueue ++ [⟨cost, depth, cfg.rng st.rngIndex, st.uniqueCounter, s⟩],
    rngIndex := st.rngIndex + 1,
    uniqueCounter := st.uniqueCounter + 1 }

/-- The loop body of `BestFirstSearch.put`: score each state and enqueue it
at the given depth when its cost survives the upper-bound pruning test,
counting each enqueue. -/
def putStates {σ : Type} (cfg : EngineCfg σ) (depth : ℕ) :
    List σ → EngineState σ → EngineState σ
  | [], st => st
  | s :: rest, st =>
    let cost := cfg.funcs.cost_func s
    let st1 :=
      if keepCost st.upperbound_cost cost then
        { pqueuePut cfg st s depth cost with num_enqueues := st.num_enqueues + 1 }
      else st
    putStates cfg depth rest st1

/-- `BestFirstSearch.put`: add the length of the state list to
`num_next_states`, then run the enqueue loop. -/
def enginePut {σ : Type} (cfg : EngineCfg σ) (states : List σ) (depth : ℕ)
    (st : EngineState σ) : EngineState σ :=
  putStates cfg depth states
    { st with num_next_states := st.num_next_states + states.length }

/-- `BestFirstSearch.initialize`: clear the priority queue (the push counter
and random stream of the queue object persist), reset bounds, flags and
counters, snapshot the penultimate stats, and push the initial states at
depth 0. -/
def initializeEngine {σ : Type} (cfg : EngineCfg σ) (states : List σ)
    (st : EngineState σ) : EngineState σ :=
  enginePut cfg states 0
    { st with
      pqueue := [], upperbound_cost := none, mincost_bound := none,
      min_reached := false, num_states_visited := 0, num_next_states := 0,
      num_enqueues := 0, num_backjumps := 0,
      penultimate_stats := some (0, 0, 0, 0) }

/-- The test `upperbound_cost is not None and upperbound_cost <= min_cost`
in `update_minimum_reached` (the popped cost is never `None` inside the
search loop). -/
def ubLeB (ub : Option Cost) (c : Cost) : Bool :=
  match ub with
  | none => false
  | some u => decide (u ≤ c)

/-- `BestFirstSearch.update_minimum_reached` applied to a popped cost. -/
def updateMinimumReached {σ : Type} (st : EngineState σ) (c : Cost) :
    EngineState σ :=
  if ubLeB st.upperbound_cost c then { st with min_reached := true } else st

/-- Test `cost > bound` against an optional bound. -/
def boundLtB (bound : Option Cost) (c : Cost) : Bool :=
  match bound with
  | none => false
  | some b => decide (b < c)

/-- `BestFirstSearch.cost_bounds_exceeded` for a popped (non-`None`) cost. -/
def costBoundsExceeded {σ : Type} (st : EngineState σ) (c : Cost) : Bool :=
  boundLtB st.mincost_bound c || boundLtB st.upperbound_cost c

/-- `BestFirstSearch.update_upperbound_goal_state`: compute the bound from
`upperbound_cost_func` (falling back to `cost_func`) and lower
`upperbound_cost` to it when it improves. -/
def updateUpperboundGoalState {σ : Type} (cfg : EngineCfg σ) (goal : σ)
    (st : EngineState σ) : EngineState σ :=
  let bound :=
    match cfg.funcs.upperbound_cost_func with
    | some f => f goal
    | none => cfg.funcs.cost_func goal
  if (match st.upperbound_cost with
      | none => true
      | some u => decide (bound < u)) then
    { st with upperbound_cost := some bound }
  else st

/-- `BestFirstSearch.update_upperbound_cost` (public API, also exposed by
the driver): lower the upper bound to an externally supplied bound. -/
def updateUpperboundCost {σ : Type} (st : EngineState σ) (bound : Cost) :
    EngineState σ :=
  if (match st.upperbound_cost with
      | none => true
      | some u => decide (bound < u)) then
    { st with upperbound_cost := some bound }
  else st

/-- The while-condition of `optimization_pass`: queue non-empty, the
first-minimum stop not triggered, and the backjump budget not used up. -/
def loopGuard {σ : Type} (cfg : EngineCfg σ) (st : EngineState σ) : Bool :=
  !st.pqueue.isEmpty &&
  (!cfg.stop_at_first_min || !st.min_reached) &&
  (match cfg.max_backjumps with
   | none => true
   | some m => decide (st.num_backjumps < m))

/-- The backjump test: `prev_depth is not None and depth <= prev_depth`. -/
def backjumpTest (prevDepth : Option ℕ) (depth : ℕ) : Bool :=
  match prevDepth with
  | none => false
  | some p => decide (depth ≤ p)

/-- Result of one `optimization_pass` call: a goal state with its cost, or
the empty result `(None, None)`. -/
inductive PassOutcome (σ : Type) where
  | goal (s : σ) (c : Cost)
  | empty
deriving DecidableEq

/-- Ghost observation of one queue pop: the depth and cost popped, and
whether the pop survived the cost-bounds check (pops that trip the check
return immediately and are not counted by `num_states_visited` or the
backjump test). -/
structure PopRecord where
  depth : ℕ
  cost : Cost
  counted : Bool
deriving DecidableEq

/-- The state after the first two statements of a loop iteration of
`optimization_pass`: the minimum entry `e` has been popped (leaving `rest`)
and `update_minimum_reached` has run on its cost. -/
def popUpdate {σ : Type} (st : EngineState σ) (e : PQEntry σ)
    (rest : List (PQEntry σ)) : EngineState σ :=
  updateMinimumReached { st with pqueue := rest } e.cost

/-- The state after additionally counting the visit
(`num_states_visited += 1`) and performing the backjump test against the
previous pop's depth. -/
def visitUpdate {σ : Type} (prevDepth : Option ℕ) (st : EngineState σ)
    (e : PQEntry σ) (rest : List (PQEntry σ)) : EngineState σ :=
  let st3 :=
    { popUpdate st e rest with
      num_states_visited := (popUpdate st e rest).num_states_visited + 1 }
  if backjumpTest prevDepth e.depth then
    { st3 with num_backjumps := st3.num_backjumps + 1 }
  else st3

/-- The state finalization of the goal branch: snapshot the penultimate
stats, update the upper bound from the goal, and run
`update_minimum_reached` again on the goal's cost. -/
def goalUpdate {σ : Type} (cfg : EngineCfg σ) (prevDepth : Option ℕ)
    (st : EngineState σ) (e : PQEntry σ) (rest : List (PQEntry σ)) :
    EngineState σ :=
  let st4 := visitUpdate prevDepth st e rest
  let st5 := { st4 with penultimate_stats := some (engineStats st4) }
  updateMinimumReached (updateUpperboundGoalState cfg e.state st5) e.cost

/-- The while loop of `BestFirstSearch.optimization_pass`, with an explicit
iteration budget (`none` = budget exhausted before the loop finished).  Each
iteration: pop the minimum; `update_minimum_reached`; return `(None, None)`
when the cost bounds are exceeded; count the visit and the backjump; either
return a goal (snapshotting stats and updating the upper bound) or push the
scored successors at `depth + 1`.  On loop exit, `min_reached` is set iff
the queue has drained.  The list of `PopRecord`s is a ghost trace of the
pops performed. -/
def passLoop {σ : Type} (cfg : EngineCfg σ) :
    ℕ → Option ℕ → EngineState σ →
    Option (PassOutcome σ × EngineState σ × List PopRecord)
  | 0, _, _ => none
  | fuel + 1, prevDepth, st =>
    if loopGuard cfg st then
      match popMin st.pqueue with
      | none => some (.empty, st, [])
      | some (e, rest) =>
        if costBoundsExceeded (popUpdate st e rest) e.cost then
          some (.empty, popUpdate st e rest, [⟨e.depth, e.cost, false⟩])
        else if cfg.funcs.goal_state_func e.state then
          some (.goal e.state e.cost, goalUpdate cfg prevDepth st e rest,
            [⟨e.depth, e.cost, true⟩])
        else
          match passLoop cfg fuel (some e.depth)
              (enginePut cfg (cfg.funcs.next_state_func e.state) (e.depth + 1)
                (visitUpdate prevDepth st e rest)) with
          | none => none
          | some (out, st6, tr) => some (out, st6, ⟨e.depth, e.cost, true⟩ :: tr)
    else if st.pqueue.isEmpty then some (.empty, { st with min_reached := true }, [])
    else some (.empty, st, [])

/-- The refresh of `mincost_bound` performed at the top of
`optimization_pass` when a `mincost_bound_func` is supplied. -/
def refreshMincostBound {σ : Type} (cfg : EngineCfg σ) (st : EngineState σ) :
    EngineState σ :=
  match cfg.funcs.mincost_bound_func with
  | some v => { st with mincost_bound := v }
  | none => st

/-- `BestFirstSearch.optimization_pass`: refresh the min-cost bound, then
run the search loop with `prev_depth = None`. -/
def optimizationPass {σ : Type} (cfg : EngineCfg σ) (fuel : ℕ)
    (st : EngineState σ) :
    Option (PassOutcome σ × EngineState σ × List PopRecord) :=
  passLoop cfg fuel none (refreshMincostBound cfg st)

/-- A sequence of `n` successive `optimization_pass` calls on the same
engine, collecting each call's outcome and pop trace. -/
def runPasses {σ : Type} (cfg : EngineCfg σ) (fuel : ℕ) :
    ℕ → EngineState σ →
    Option (List (PassOutcome σ × List PopRecord) × EngineState σ)
  | 0, st => some ([], st)
  | n + 1, st =>
    match optimizationPass cfg fuel st with
    | none => none
    | some (out, st1, tr) =>
      match runPasses cfg fuel n st1 with
      | none => none
      | some (outs, st2) => some ((out, tr) :: outs, st2)

/-- State of a `CutOptimization` driver: its search engine, the result of
the greedy pre-pass (`greedy_goal_state`, computed in `__init__` by
`greedy_cut_optimization`; here it is a constructor argument, since the
greedy search itself is not needed for the properties below), and the
`goal_state_returned` flag. -/
structure DriverState (σ : Type) where
  engine : EngineState σ
  greedy_goal_state : Option σ
  goal_state_returned : Bool
deriving DecidableEq

/-- Result of one `CutOptimization.optimization_pass` call: the returned
`(state, cost)` pair, or the exception Python would raise
(`cost_func(None, ...)` when the greedy pre-pass failed and the engine
yields nothing on the first call). -/
inductive DriverResult (σ : Type) where
  | ok (s : Option σ) (c : Option Cost)
  | crash
deriving DecidableEq

/-- The tail of `CutOptimization.__init__`: the engine is initialized with
the start state list, and, when the greedy pre-pass found a goal, the upper
bound is seeded from it via `update_upperbound_goal_state`;
`goal_state_returned` starts `False`. -/
def driverInit {σ : Type} (cfg : EngineCfg σ) (initialStates : List σ)
    (greedy : Option σ) : DriverState σ :=
  let e0 := initializeEngine cfg initialStates (engineInit0 σ)
  let e1 :=
    match greedy with
    | some g => updateUpperboundGoalState cfg g e0
    | none => e0
  ⟨e1, greedy, false⟩

/-- `CutOptimization.optimization_pass`: delegate to the engine; when the
engine yields no state and no goal state has been returned yet, fall back
to the greedy pre-pass result, scored with `cost_func`; always set
`goal_state_returned` before returning. -/
def driverPass {σ : Type} (cfg : EngineCfg σ) (fuel : ℕ)
    (d : DriverState σ) : Option (DriverResult σ × DriverState σ) :=
  match optimizationPass cfg fuel d.engine with
  | none => none
  | some (out, est, _) =>
    match out with
    | .goal s c =>
      some (.ok (some s) (some c), ⟨est, d.greedy_goal_state, true⟩)
    | .empty =>
      if d.goal_state_returned then
        some (.ok none none, ⟨est, d.greedy_goal_state, true⟩)
      else
        match d.greedy_goal_state with
        | some g =>
          some (.ok (some g) (some (cfg.funcs.cost_func g)),
            ⟨est, d.greedy_goal_state, true⟩)
        | none => some (.crash, ⟨est, d.greedy_goal_state, d.goal_state_returned⟩)

/-- A sequence of `n` successive driver `optimization_pass` calls; a raised
exception ends the sequence. -/
def runDriverPasses {σ : Type} (cfg : EngineCfg σ) (fuel : ℕ) :
    ℕ → DriverState σ → Option (List (DriverResult σ) × DriverState σ)
  | 0, d => some ([], d)
  | n + 1, d =>
    match driverPass cfg fuel d with
    | none => none
    | some (.crash, d1) => some ([.crash], d1)
    | some (r, d1) =>
      match runDriverPasses cfg fuel n d1 with
      | none => none
      | some (rs, d2) => some (r :: rs, d2)

/-- The costs of the non-empty results in a sequence of driver results. -/
def driverCosts {σ : Type} : List (DriverResult σ) → List Cost :=
  List.filterMap fun r =>
    match r with
    | .ok _ (some c) => some c
    | _ => none

/-- The costs of the goal outcomes in a sequence of engine pass outcomes. -/
def goalCosts {σ : Type} : List (PassOutcome σ) → List Cost :=
  List.filterMap fun o =>
    match o with
    | .goal _ c => some c
    | .empty => none

/-- A small concrete callback bundle over `ℕ`-labelled states, used to
exercise the engine on closed inputs. -/
def natFuncs : SearchFuncs ℕ where
  cost_func := fun n => mkCost (n : ℚ) 0
  next_state_func := fun _ => []
  goal_state_func := fun _ => true
  upperbound_cost_func := some fun _ => mkCost 100 ⊤
  mincost_bound_func := none

/-- Concrete optimization settings for closed runs. -/
def natSettings : OptimizationSettings := ⟨none, some 5, some 42, []⟩

/-- Concrete engine configuration for closed runs. -/
def natCfg : EngineCfg ℕ := mkEngineCfg natFuncs natSettings false

/-- Count, along a list of pop depths, the pops whose depth is less than or
equal to the depth of the immediately preceding pop (the `prev_depth`
carried in from the left of the list; `none` means no pop precedes). -/
def bjCountFrom : Option ℕ → List ℕ → ℕ
  | _, [] => 0
  | prev, d :: rest =>
    (if backjumpTest prev d then 1 else 0) + bjCountFrom (some d) rest

/-- The depths of the pops of a trace that survived the cost-bounds check
(only those participate in the backjump accounting of the code). -/
def countedDepths (tr : List PopRecord) : List ℕ :=
  (tr.filter fun p => p.counted).map fun p => p.depth

/-- The depths of all pops performed over a whole run of passes, in order:
the pop sequence of the engine's lifetime. -/
def lifetimeDepths {σ : Type} (res : List (PassOutcome σ × List PopRecord)) :
    List ℕ :=
  (res.map fun p => p.2.map fun q => q.depth).flatten

/-- Callback bundle exhibiting the interaction of the backjump budget with
`update_minimum_reached`: no goals, no successors, two states priced exactly
at an upper bound that will be supplied externally. -/
def natFuncsC5 : SearchFuncs ℕ where
  cost_func := fun n => if n = 2 then mkCost 7 0 else mkCost 5 5
  next_state_func := fun _ => []
  goal_state_func := fun _ => false
  upperbound_cost_func := some fun _ => mkCost 100 ⊤
  mincost_bound_func := none

/-- Engine configuration with a backjump budget of 1 and
`stop_at_first_min = False`. -/
def natCfgC5 : EngineCfg ℕ := mkEngineCfg natFuncsC5 ⟨none, some 1, some 7, []⟩ false

/-- The initial engine state of the C5 scenario: three states enqueued, then
the public `update_upperbound_cost` seeds the bound `(5, 5)`. -/
def stateC5 : EngineState ℕ :=
  updateUpperboundCost (initializeEngine natCfgC5 [0, 1, 2] (engineInit0 ℕ))
    (mkCost 5 5)

/-- The outcome list of the two-pass run used for the backjump-accounting
witness: both passes pop a goal at depth 0. -/
def resC4 : List (PassOutcome ℕ × List PopRecord) :=
  [(PassOutcome.goal 0 (mkCost 0 0), [⟨0, mkCost 0 0, true⟩]),
   (PassOutcome.goal 1 (mkCost 1 0), [⟨0, mkCost 1 0, true⟩])]

/-- The final engine state of that two-pass run. -/
def stfC4 : EngineState ℕ :=
  ⟨[], 2, 2, some (mkCost 100 ⊤), none, false, 2, 2, 2, 0, some (2, 2, 2, 0)⟩

/-- An engine state whose backjump budget is already used up
(`num_backjumps = 1`) while its queue is still non-empty. -/
def stateC5b : EngineState ℕ :=
  ⟨[⟨mkCost 5 5, 0, mkRat 1 2, 0, 0⟩], 1, 1, none, none, false, 2, 3, 3, 1,
    none⟩

/-- A gate of the circuit (`CircuitElement`): its name and the qubit IDs it
acts on (the class also carries parameters and a gamma factor, which the
properties below do not consume). -/
structure CircuitElement where
  name : String
  qubits : List ℕ
deriving DecidableEq

/-- An entry of `get_multiqubit_gates`: `[<index>, <gate>, <cut_constraints>]`
where the constraints are `None` (unconstrained) or a list of allowed cut
types (the type `None` standing for applying the gate uncut). -/
structure GateSpec where
  index : ℕ
  gate : CircuitElement
  constraints : Option (List (Option String))
deriving DecidableEq

/-- A cutting action: its name (`None` for the no-cut action) and its
`next_state(state, gate_spec, max_width)` successor generator. -/
structure Action (σ : Type) where
  name : Option String
  next_state : σ → GateSpec → ℕ → List σ

/-- Modelled from the spec: the `ActionNames` registry of
`search_space_generator.py` (not under `src/`) groups cutting actions by
applicability; `get_group` returns the actions of a named group. -/
structure ActionNames (σ : Type) where
  groups : List (String × List (Action σ))

/-- Modelled from the spec: `ActionNames.get_group`. -/
def getGroup {σ : Type} (an : ActionNames σ) (name : String) :
    List (Action σ) :=
  match an.groups.lookup name with
  | some actions => actions
  | none => []

/-- Modelled from the spec: `get_action_subset` of
`search_space_generator.py` (not under `src/`) intersects an action list
with the per-gate cut constraints — `None` constraints allow every action,
otherwise only actions whose name appears in the constraint list remain. -/
def getActionSubset {σ : Type} (actions : List (Action σ))
    (names : Option (List (Option String))) : List (Action σ) :=
  match names with
  | none => actions
  | some ns => actions.filter fun a => decide (a.name ∈ ns)

/-- The `CutOptimizationFuncArgs` dataclass (the fields asserted non-`None`
by the search-space functions are embedded already populated). -/
structure CutOptimizationFuncArgs (σ : Type) where
  entangling_gates : List GateSpec
  search_actions : ActionNames σ
  max_gamma : Option ℚ
  qpu_width : ℕ

/-- `cut_optimization_next_state_func`: select the entangling-gate spec at
the state's search level; a two-qubit gate draws its actions from the
`TwoQubitGates` group filtered by the gate's cut constraints and applies
each to collect the successor list; any other arity raises `ValueError`.
The search state type is abstract, so the `get_search_level` accessor is a
parameter; Python's `IndexError` on an out-of-range level is the first
error case. -/
def cutOptimizationNextStateFunc {σ : Type} (get_search_level : σ → ℕ)
    (state : σ) (fa : CutOptimizationFuncArgs σ) : Except String (List σ) :=
  match fa.entangling_gates[get_search_level state]? with
  | none => Except.error "IndexError: list index out of range"
  | some gate_spec =>
    if gate_spec.gate.qubits.length = 2 then
      Except.ok
        (((getActionSubset (getGroup fa.search_actions "TwoQubitGates")
            gate_spec.constraints).map fun action =>
          action.next_state state gate_spec fa.qpu_width).flatten)
    else
      Except.error
        "In the current version, only the cutting of two qubit gates is supported."

/-- An entry of the `SimpleGateList` internal circuit list: either a bare
non-list element (such as the string `barrier`) or a gate specification
paired with its cut constraints. -/
inductive CircuitGate where
  | bare (g : String)
  | elem (g : CircuitElement) (constraints : Option (List (Option String)))
deriving DecidableEq

/-- `SimpleGateList.getMultiQubitGates`: keep the list-form gates acting on
at least two qubits that are not barriers, prepending each gate's index. -/
def getMultiQubitGatesCI (circuit : List CircuitGate) : List GateSpec :=
  circuit.enum.filterMap fun kg =>
    match kg.2 with
    | .bare _ => none
    | .elem g cons =>
      if 2 ≤ g.qubits.length ∧ g.name ≠ "barrier" then
        some ⟨kg.1, g, cons⟩
      else none

/-- `max_wire_cuts_circuit`: the sum of the arities of the multi-qubit
gates of the circuit. -/
def maxWireCutsCircuit (circuit : List CircuitGate) : ℕ :=
  ((getMultiQubitGatesCI circuit).map fun gs => gs.gate.qubits.length).sum

/-- `max_wire_cuts_gamma`: `int(np.ceil(np.log2(max_gamma + 1) - 1))` under
exact real arithmetic.  Since `log2(x) - 1 = log2(x / 2)`, the value is
`⌈log₂((γ + 1) / 2)⌉ = Int.clog 2 ((γ + 1) / 2)` (see
`maxWireCutsGamma_eq_ceil`), which keeps the definition executable. -/
def maxWireCutsGamma (g : ℚ) : ℤ := Int.clog 2 ((g + 1) / 2)

/-- The `max_wire_cuts` computation of `CutOptimization.__init__`: start
from the circuit bound; if the greedy pre-pass found a goal, cap by the
gamma bound at its upper-bound gamma; otherwise, if `max_gamma` is set, cap
by the gamma bound at `max_gamma`; otherwise keep the circuit bound.  The
state class is not under `src/`, so its `upper_bound_gamma` accessor is a
parameter. -/
def cutOptimizationMaxWireCuts {σ : Type} (circuit : List CircuitGate)
    (greedy : Option σ) (upper_bound_gamma : σ → ℚ) (max_gamma : Option ℚ) :
    ℤ :=
  match greedy with
  | some gstate =>
    min (maxWireCutsCircuit circuit : ℤ)
      (maxWireCutsGamma (upper_bound_gamma gstate))
  | none =>
    match max_gamma with
    | some mg => min (maxWireCutsCircuit circuit : ℤ) (maxWireCutsGamma mg)
    | none => (maxWireCutsCircuit circuit : ℤ)

/-- The engine state left behind by the first pass of the C2/C8 witness
scenario (empty queue, seeded upper bound, minimum reached). -/
def estC8 : EngineState ℕ :=
  ⟨[], 0, 0, some (mkCost 100 ⊤), none, true, 0, 0, 0, 0, some (0, 0, 0, 0)⟩

/-- Association-list lookup, first match first — the model of Python
dictionary lookup (inserts below only ever add absent keys, so first-match
agrees with the dictionary). -/
def alookup {α γ : Type} [DecidableEq α] : List (α × γ) → α → Option γ
  | [], _ => none
  | (k, v) :: rest, a => if k = a then some v else alookup rest a

/-- `NameToIDMap`: the `next_ID` counter and the two mutually inverse
dictionaries `item_dict` (name → ID) and `ID_dict` (ID → name). -/
structure NameToIDMap (β : Type) where
  next_ID : ℕ
  item_dict : List (β × ℕ)
  ID_dict : List (ℕ × β)

/-- A `NameToIDMap()` built with no initial names. -/
def emptyNameToIDMap (β : Type) : NameToIDMap β := ⟨0, [], []⟩

/-- The `while next_ID in ID_dict: next_ID += 1` free-ID scan of `getID`,
with an explicit iteration budget; the budget `|ID_dict| + 1` always finds
a free ID (`findFree_free`). -/
def findFree {β : Type} (ids : List (ℕ × β)) : ℕ → ℕ → ℕ
  | 0, n => n
  | fuel + 1, n =>
    if (alookup ids n).isSome then findFree ids fuel (n + 1) else n

/-- `NameToIDMap.getID`: return the ID of a known name unchanged;
otherwise allocate the first free ID at least `next_ID`, record it in both
dictionaries and advance `next_ID` past it. -/
def getID {β : Type} [DecidableEq β] (m : NameToIDMap β) (item_name : β) :
    ℕ × NameToIDMap β :=
  match alookup m.item_dict item_name with
  | some i => (i, m)
  | none =>
    let f := findFree m.ID_dict (m.ID_dict.length + 1) m.next_ID
    (f, ⟨f + 1, (item_name, f) :: m.item_dict, (f, item_name) :: m.ID_dict⟩)

/-- `NameToIDMap.defineID`: assign a specific ID to a name; the Python
`assert`s that both are fresh are modelled by returning `none` when
violated. -/
def defineID {β : Type} [DecidableEq β] (m : NameToIDMap β) (item_ID : ℕ)
    (item_name : β) : Option (NameToIDMap β) :=
  if (alookup m.ID_dict item_ID).isSome ||
      (alookup m.item_dict item_name).isSome then none
  else
    some ⟨m.next_ID, (item_name, item_ID) :: m.item_dict,
      (item_ID, item_name) :: m.ID_dict⟩

/-- `NameToIDMap.getName`: the name of an ID, `None` when unassigned. -/
def getName {β : Type} (m : NameToIDMap β) (item_ID : ℕ) : Option β :=
  alookup m.ID_dict item_ID

/-- The two dictionaries of a map are mutually inverse.  This holds for
every map built by `getID` and `defineID` (see `mapWF_empty`,
`getID_spec`, `defineID_wf`). -/
def MapWF {β : Type} [DecidableEq β] (m : NameToIDMap β) : Prop :=
  ∀ (n : β) (i : ℕ),
    alookup m.item_dict n = some i ↔ alookup m.ID_dict i = some n

/-- Wire names of `SimpleGateList`: an original qubit name, or the tuple
`("cut", <name>)` generated for the new wire of a wire cut (iterated for
repeated cuts). -/
inductive WireName (β : Type) where
  | base (b : β)
  | cut (w : WireName β)
deriving DecidableEq

/-- The original qubit name a wire descends from. -/
def wireBase {β : Type} : WireName β → β
  | .base b => b
  | .cut w => wireBase w

/-- How many times the wire has been cut off its original qubit. -/
def cutDepth {β : Type} : WireName β → ℕ
  | .base _ => 0
  | .cut w => cutDepth w + 1

/-- `SimpleGateList.sortOrder`: a non-tuple name sorts at its numeric ID;
a cut wire `("cut", w)` sorts at `x_int + 0.5 * x_frac + 0.5` where `x` is
the parent's sort key.  Python's `int()` truncation coincides with the
floor here because IDs, hence all sort keys, are non-negative. -/
def sortOrder {β : Type} [DecidableEq β] (m : NameToIDMap β) :
    WireName β → ℚ
  | .base b => ((getID m b).1 : ℚ)
  | .cut w =>
    let x := sortOrder m w
    (⌊x⌋ : ℚ) + (x - (⌊x⌋ : ℚ)) / 2 + 1 / 2

/-- A wire name whose original qubit name is present in the map (so that
`sortOrder`'s `getID` calls do not mutate the map). -/
def registeredIn {β : Type} [DecidableEq β] (m : NameToIDMap β) :
    WireName β → Bool
  | .base b => (alookup m.item_dict b).isSome
  | .cut w => registeredIn m w

/-- The concrete name map of the C9 witness: two qubit names 7 and 8
registered through `getID`. -/
def mapC9 : NameToIDMap ℕ :=
  (getID (getID (emptyNameToIDMap ℕ) 7).2 8).2

/-- Queue lower bound: every queued entry costs at least `c`. -/
def QLB {σ : Type} (c : Cost) (st : EngineState σ) : Prop :=
  ∀ e ∈ st.pqueue, c ≤ e.cost

/-- Queue well-formedness: every queued entry carries the cost that
`cost_func` assigns to its state (as arranged by `put`). -/
def WFQ {σ : Type} (cfg : EngineCfg σ) (st : EngineState σ) : Prop :=
  ∀ e ∈ st.pqueue, e.cost = cfg.funcs.cost_func e.state

/-- Cost monotonicity of the successor function: every successor state costs
at least its parent. -/
def MonoCost {σ : Type} (cfg : EngineCfg σ) : Prop :=
  ∀ s s', s' ∈ cfg.funcs.next_state_func s →
    cfg.funcs.cost_func s ≤ cfg.funcs.cost_func s'

/-- The min-cost bound a future `optimization_pass` call will work with:
the refreshed value when a `mincost_bound_func` is supplied, the stored one
otherwise. -/
def effMincost {σ : Type} (cfg : EngineCfg σ) (st : EngineState σ) :
    Option Cost :=
  match cfg.funcs.mincost_bound_func with
  | some v => v
  | none => st.mincost_bound

/-- An engine state from which every future `optimization_pass` call
returns the empty result: the queue has drained, or the stop-at-first-min
exit is latched, or the backjump budget is used up, or every queued entry
trips the cost-bounds check. -/
def Dead {σ : Type} (cfg : EngineCfg σ) (st : EngineState σ) : Prop :=
  st.pqueue = [] ∨
  (cfg.stop_at_first_min = true ∧ st.min_reached = true) ∨
  (∃ m, cfg.max_backjumps = some m ∧ m ≤ st.num_backjumps) ∨
  (∀ e ∈ st.pqueue,
    (boundLtB (effMincost cfg st) e.cost || boundLtB st.upperbound_cost e.cost)
      = true)

end CKT

namespace CKT

theorem popMin_eq_none {σ : Type} {l : List (PQEntry σ)} :
    popMin l = none ↔ l = [] := by
  cases l with
  | nil => simp [popMin]
  | cons e rest =>
    simp only [popMin]
    cases h : popMin rest with
    | none => simp
    | some p =>
      obtain ⟨m, rest2⟩ := p
      by_cases hk : e.key ≤ m.key <;> simp [hk]

theorem popMin_mem {σ : Type} {l : List (PQEntry σ)} {m : PQEntry σ}
    {r : List (PQEntry σ)} (h : popMin l = some (m, r)) : m ∈ l := by
  induction l generalizing m r with
  | nil => simp [popMin] at h
  | cons e rest ih =>
    simp only [popMin] at h
    cases hrest : popMin rest with
    | none =>
      rw [hrest] at h
      simp at h
      simp [h.1]
    | some p =>
      obtain ⟨m2, rest2⟩ := p
      rw [hrest] at h
      by_cases hk : e.key ≤ m2.key
      · simp [hk] at h
        simp [h.1]
      · simp [hk] at h
        right
        exact h.1 ▸ ih (by rw [hrest])

theorem popMin_subset {σ : Type} {l : List (PQEntry σ)} {m : PQEntry σ}
    {r : List (PQEntry σ)} (h : popMin l = some (m, r)) :
    ∀ x ∈ r, x ∈ l := by
  induction l generalizing m r with
  | nil => simp [popMin] at h
  | cons e rest ih =>
    simp only [popMin] at h
    cases hrest : popMin rest with
    | none =>
      rw [hrest] at h
      simp at h
      simp [h.2]
    | some p =>
      obtain ⟨m2, rest2⟩ := p
      rw [hrest] at h
      by_cases hk : e.key ≤ m2.key
      · simp [hk] at h
        obtain ⟨rfl, rfl⟩ := h
        intro x hx
        simp [hx]
      · simp [hk] at h
        obtain ⟨rfl, rfl⟩ := h
        intro x hx
        rcases List.mem_cons.mp hx with hx | hx
        · simp [hx]
        · exact List.mem_cons_of_mem e (ih hrest x hx)

theorem popMin_min {σ : Type} {l : List (PQEntry σ)} {m : PQEntry σ}
    {r : List (PQEntry σ)} (h : popMin l = some (m, r)) :
    ∀ x ∈ l, m.key ≤ x.key := by
  induction l generalizing m r with
  | nil => simp [popMin] at h
  | cons e rest ih =>
    simp only [popMin] at h
    cases hrest : popMin rest with
    | none =>
      rw [hrest] at h
      simp at h
      have : rest = [] := popMin_eq_none.mp hrest
      subst this
      intro x hx
      simp at hx
      simp [hx, ← h.1]
    | some p =>
      obtain ⟨m2, rest2⟩ := p
      rw [hrest] at h
      by_cases hk : e.key ≤ m2.key
      · simp [hk] at h
        intro x hx
        rcases List.mem_cons.mp hx with hx | hx
        · simp [hx, ← h.1]
        · exact h.1 ▸ le_trans hk (ih hrest x hx)
      · simp [hk] at h
        intro x hx
        rcases List.mem_cons.mp hx with hx | hx
        · exact h.1 ▸ hx ▸ le_of_not_le hk
        · exact h.1 ▸ ih hrest x hx

/-- The first component of the heap key is the cost: a key comparison
entails a cost comparison. -/
theorem cost_le_of_key_le {σ : Type} {a b : PQEntry σ}
    (h : a.key ≤ b.key) : a.cost ≤ b.cost := by
  unfold PQEntry.key at h
  rcases (Prod.Lex.le_iff _ _).mp h with h | h
  · exact le_of_lt h
  · exact le_of_eq h.1

theorem putStates_fields {σ : Type} (cfg : EngineCfg σ) (d : ℕ) :
    ∀ (states : List σ) (st : EngineState σ),
    (putStates cfg d states st).upperbound_cost = st.upperbound_cost ∧
    (putStates cfg d states st).mincost_bound = st.mincost_bound ∧
    (putStates cfg d states st).min_reached = st.min_reached ∧
    (putStates cfg d states st).num_states_visited = st.num_states_visited ∧
    (putStates cfg d states st).num_backjumps = st.num_backjumps ∧
    (putStates cfg d states st).num_next_states = st.num_next_states ∧
    (putStates cfg d states st).penultimate_stats = st.penultimate_stats := by
  intro states
  induction states with
  | nil => intro st; simp [putStates]
  | cons s rest ih =>
    intro st
    simp only [putStates]
    by_cases hk : keepCost st.upperbound_cost (cfg.funcs.cost_func s) = true
    · simp only [hk, if_true]
      exact ih _
    · simp only [eq_false_of_ne_true hk, if_false]
      exact ih st

theorem putStates_enqueues {σ : Type} (cfg : EngineCfg σ) (d : ℕ) :
    ∀ (states : List σ) (st : EngineState σ),
    (putStates cfg d states st).num_enqueues = st.num_enqueues +
      (states.filter fun s =>
        keepCost st.upperbound_cost (cfg.funcs.cost_func s)).length := by
  intro states
  induction states with
  | nil => intro st; simp [putStates]
  | cons s rest ih =>
    intro st
    simp only [putStates, List.filter_cons]
    by_cases hk : keepCost st.upperbound_cost (cfg.funcs.cost_func s) = true
    · rw [if_pos hk, if_pos hk, ih]
      simp [pqueuePut]
      omega
    · rw [if_neg hk, if_neg hk, ih]

theorem putStates_pqueue {σ : Type} (cfg : EngineCfg σ) (d : ℕ) :
    ∀ (states : List σ) (st : EngineState σ),
    ∃ new : List (PQEntry σ),
    (putStates cfg d states st).pqueue = st.pqueue ++ new ∧
    new.map PQEntry.state = (states.filter fun s =>
      keepCost st.upperbound_cost (cfg.funcs.cost_func s)) ∧
    (∀ e ∈ new, e.depth = d ∧ e.cost = cfg.funcs.cost_func e.state) := by
  intro states
  induction states with
  | nil =>
    intro st
    exact ⟨[], by simp [putStates], by simp, by simp⟩
  | cons s rest ih =>
    intro st
    simp only [putStates, List.filter_cons]
    by_cases hk : keepCost st.upperbound_cost (cfg.funcs.cost_func s) = true
    · simp only [hk, if_true]
      set st1 : EngineState σ :=
        { pqueuePut cfg st s d (cfg.funcs.cost_func s) with
          num_enqueues := st.num_enqueues + 1 } with hst1
      obtain ⟨new, hq, hmap, hprops⟩ := ih st1
      have hub : st1.upperbound_cost = st.upperbound_cost := by
        simp [hst1, pqueuePut]
      refine ⟨⟨cfg.funcs.cost_func s, d, cfg.rng st.rngIndex,
        st.uniqueCounter, s⟩ :: new, ?_, ?_, ?_⟩
      · rw [hq]
        simp [hst1, pqueuePut]
      · simp only [List.map_cons]
        rw [hmap, hub]
      · intro e he
        rcases List.mem_cons.mp he with he | he
        · subst he; exact ⟨rfl, rfl⟩
        · exact hprops e he
    · simp only [eq_false_of_ne_true hk, if_false]
      exact ih st

theorem putStates_mem {σ : Type} {cfg : EngineCfg σ} {d : ℕ}
    {states : List σ} {st : EngineState σ} {e : PQEntry σ}
    (h : e ∈ (putStates cfg d states st).pqueue) :
    e ∈ st.pqueue ∨
    (e.depth = d ∧ e.cost = cfg.funcs.cost_func e.state ∧ e.state ∈ states) := by
  obtain ⟨new, hq, hmap, hprops⟩ := putStates_pqueue cfg d states st
  rw [hq] at h
  rcases List.mem_append.mp h with h | h
  · exact Or.inl h
  · refine Or.inr ⟨(hprops e h).1, (hprops e h).2, ?_⟩
    have : e.state ∈ new.map PQEntry.state := List.mem_map_of_mem _ h
    rw [hmap] at this
    exact List.mem_of_mem_filter this

theorem enginePut_mem {σ : Type} {cfg : EngineCfg σ} {d : ℕ}
    {states : List σ} {st : EngineState σ} {e : PQEntry σ}
    (h : e ∈ (enginePut cfg states d st).pqueue) :
    e ∈ st.pqueue ∨
    (e.depth = d ∧ e.cost = cfg.funcs.cost_func e.state ∧ e.state ∈ states) := by
  unfold enginePut at h
  have h2 := putStates_mem h
  exact h2

theorem enginePut_fields {σ : Type} (cfg : EngineCfg σ) (states : List σ)
    (d : ℕ) (st : EngineState σ) :
    (enginePut cfg states d st).upperbound_cost = st.upperbound_cost ∧
    (enginePut cfg states d st).mincost_bound = st.mincost_bound ∧
    (enginePut cfg states d st).min_reached = st.min_reached ∧
    (enginePut cfg states d st).num_states_visited = st.num_states_visited ∧
    (enginePut cfg states d st).num_backjumps = st.num_backjumps ∧
    (enginePut cfg states d st).num_next_states =
      st.num_next_states + states.length := by
  unfold enginePut
  obtain ⟨h1, h2, h3, h4, h5, h6, h7⟩ := putStates_fields cfg d states
    { st with num_next_states := st.num_next_states + states.length }
  exact ⟨h1, h2, h3, h4, h5, h6⟩

theorem updateMinimumReached_fields {σ : Type} (st : EngineState σ) (c : Cost) :
    (updateMinimumReached st c).pqueue = st.pqueue ∧
    (updateMinimumReached st c).upperbound_cost = st.upperbound_cost ∧
    (updateMinimumReached st c).mincost_bound = st.mincost_bound ∧
    (updateMinimumReached st c).num_states_visited = st.num_states_visited ∧
    (updateMinimumReached st c).num_backjumps = st.num_backjumps ∧
    (updateMinimumReached st c).num_next_states = st.num_next_states ∧
    (updateMinimumReached st c).num_enqueues = st.num_enqueues := by
  unfold updateMinimumReached
  split <;> exact ⟨rfl, rfl, rfl, rfl, rfl, rfl, rfl⟩

theorem updateMinimumReached_min {σ : Type} (st : EngineState σ) (c : Cost) :
    (updateMinimumReached st c).min_reached =
      (st.min_reached || ubLeB st.upperbound_cost c) := by
  unfold updateMinimumReached
  by_cases h : ubLeB st.upperbound_cost c = true
  · rw [if_pos h, h]
    simp
  · rw [if_neg h, Bool.eq_false_iff.mpr h]
    simp

theorem updateUpperboundGoalState_fields {σ : Type} (cfg : EngineCfg σ)
    (g : σ) (st : EngineState σ) :
    (updateUpperboundGoalState cfg g st).pqueue = st.pqueue ∧
    (updateUpperboundGoalState cfg g st).mincost_bound = st.mincost_bound ∧
    (updateUpperboundGoalState cfg g st).min_reached = st.min_reached ∧
    (updateUpperboundGoalState cfg g st).num_states_visited =
      st.num_states_visited ∧
    (updateUpperboundGoalState cfg g st).num_backjumps = st.num_backjumps ∧
    (updateUpperboundGoalState cfg g st).num_next_states =
      st.num_next_states ∧
    (updateUpperboundGoalState cfg g st).num_enqueues = st.num_enqueues := by
  simp only [updateUpperboundGoalState]
  split <;> exact ⟨rfl, rfl, rfl, rfl, rfl, rfl, rfl⟩

theorem boundLtB_mono {b : Option Cost} {c c2 : Cost}
    (h : boundLtB b c = true) (hle : c ≤ c2) : boundLtB b c2 = true := by
  cases b with
  | none => simp [boundLtB] at h
  | some u =>
    simp only [boundLtB, decide_eq_true_eq] at h ⊢
    exact lt_of_lt_of_le h hle

theorem loopGuard_iff {σ : Type} (cfg : EngineCfg σ) (st : EngineState σ) :
    loopGuard cfg st = true ↔
    st.pqueue ≠ [] ∧
    (cfg.stop_at_first_min = false ∨ st.min_reached = false) ∧
    (∀ m, cfg.max_backjumps = some m → st.num_backjumps < m) := by
  unfold loopGuard
  cases hmb : cfg.max_backjumps with
  | none =>
    simp [List.isEmpty_iff, Bool.not_eq_true', Bool.or_eq_true,
      Bool.not_eq_true]
  | some m =>
    simp [List.isEmpty_iff, Bool.not_eq_true', Bool.or_eq_true,
      Bool.not_eq_true, and_assoc]

theorem popUpdate_fields {σ : Type} (st : EngineState σ) (e : PQEntry σ)
    (rest : List (PQEntry σ)) :
    (popUpdate st e rest).pqueue = rest ∧
    (popUpdate st e rest).upperbound_cost = st.upperbound_cost ∧
    (popUpdate st e rest).mincost_bound = st.mincost_bound ∧
    (popUpdate st e rest).num_states_visited = st.num_states_visited ∧
    (popUpdate st e rest).num_backjumps = st.num_backjumps ∧
    (popUpdate st e rest).num_next_states = st.num_next_states ∧
    (popUpdate st e rest).num_enqueues = st.num_enqueues ∧
    (popUpdate st e rest).penultimate_stats = st.penultimate_stats ∧
    (popUpdate st e rest).min_reached =
      (st.min_reached || ubLeB st.upperbound_cost e.cost) := by
  unfold popUpdate updateMinimumReached
  by_cases h : ubLeB st.upperbound_cost e.cost = true
  · simp [h]
  · simp [Bool.eq_false_iff.mpr h]

theorem visitUpdate_fields {σ : Type} (prevDepth : Option ℕ)
    (st : EngineState σ) (e : PQEntry σ) (rest : List (PQEntry σ)) :
    (visitUpdate prevDepth st e rest).pqueue = rest ∧
    (visitUpdate prevDepth st e rest).upperbound_cost = st.upperbound_cost ∧
    (visitUpdate prevDepth st e rest).mincost_bound = st.mincost_bound ∧
    (visitUpdate prevDepth st e rest).num_states_visited =
      st.num_states_visited + 1 ∧
    (visitUpdate prevDepth st e rest).num_backjumps =
      st.num_backjumps + (if backjumpTest prevDepth e.depth then 1 else 0) ∧
    (visitUpdate prevDepth st e rest).num_next_states = st.num_next_states ∧
    (visitUpdate prevDepth st e rest).num_enqueues = st.num_enqueues ∧
    (visitUpdate prevDepth st e rest).min_reached =
      (st.min_reached || ubLeB st.upperbound_cost e.cost) := by
  obtain ⟨h1, h2, h3, h4, h5, h6, h7, h8, h9⟩ := popUpdate_fields st e rest
  unfold visitUpdate
  by_cases h : backjumpTest prevDepth e.depth = true
  · simp [h, h1, h2, h3, h4, h5, h6, h7, h9]
  · simp [Bool.eq_false_iff.mpr h, h1, h2, h3, h4, h5, h6, h7, h9]

theorem goalUpdate_fields {σ : Type} (cfg : EngineCfg σ)
    (prevDepth : Option ℕ) (st : EngineState σ) (e : PQEntry σ)
    (rest : List (PQEntry σ)) :
    (goalUpdate cfg prevDepth st e rest).pqueue = rest ∧
    (goalUpdate cfg prevDepth st e rest).mincost_bound = st.mincost_bound ∧
    (goalUpdate cfg prevDepth st e rest).num_states_visited =
      st.num_states_visited + 1 ∧
    (goalUpdate cfg prevDepth st e rest).num_backjumps =
      st.num_backjumps + (if backjumpTest prevDepth e.depth then 1 else 0) := by
  obtain ⟨h1, h2, h3, h4, h5, h6, h7, h8⟩ :=
    visitUpdate_fields prevDepth st e rest
  unfold goalUpdate
  set st4 := visitUpdate prevDepth st e rest with hst4
  set st5 : EngineState σ :=
    { st4 with penultimate_stats := some (engineStats st4) } with hst5
  obtain ⟨g1, g2, g3, g4, g5, g6, g7⟩ :=
    updateUpperboundGoalState_fields cfg e.state st5
  obtain ⟨m1, m2, m3, m4, m5, m6, m7⟩ :=
    updateMinimumReached_fields (updateUpperboundGoalState cfg e.state st5)
      e.cost
  refine ⟨?_, ?_, ?_, ?_⟩
  · rw [m1, g1]; exact h1
  · rw [m3, g2]; exact h3
  · rw [m4, g4]; exact h4
  · rw [m5, g5]; exact h5

/-- Soundness invariant of the search loop: the min-cost bound is left
alone, queue entries keep carrying their `cost_func` values, a returned
goal's cost dominates every entry cost present at loop entry and lower
bounds the final queue, and an empty return leaves the upper bound alone
and a dead engine behind. -/
theorem passLoop_sound {σ : Type} (cfg : EngineCfg σ) (hmono : MonoCost cfg) :
    ∀ (fuel : ℕ) (prev : Option ℕ) (st : EngineState σ)
      (out : PassOutcome σ) (stf : EngineState σ) (tr : List PopRecord),
    WFQ cfg st →
    passLoop cfg fuel prev st = some (out, stf, tr) →
    stf.mincost_bound = st.mincost_bound ∧
    WFQ cfg stf ∧
    (∀ s c, out = PassOutcome.goal s c →
      (∀ c₀, QLB c₀ st → c₀ ≤ c) ∧ QLB c stf) ∧
    (out = PassOutcome.empty →
      stf.upperbound_cost = st.upperbound_cost ∧
      (effMincost cfg st = st.mincost_bound → Dead cfg stf)) := by
  intro fuel
  induction fuel with
  | zero =>
    intro prev st out stf tr hwfq hrun
    simp [passLoop] at hrun
  | succ f ih =>
    intro prev st out stf tr hwfq hrun
    rw [passLoop] at hrun
    by_cases hg : loopGuard cfg st = true
    · rw [if_pos hg] at hrun
      cases hpop : popMin st.pqueue with
      | none =>
        exfalso
        exact ((loopGuard_iff cfg st).mp hg).1 (popMin_eq_none.mp hpop)
      | some p =>
        obtain ⟨e, rest⟩ := p
        rw [hpop] at hrun
        dsimp only at hrun
        have hemem : e ∈ st.pqueue := popMin_mem hpop
        have hrest_sub : ∀ x ∈ rest, x ∈ st.pqueue := popMin_subset hpop
        have hrest_ge : ∀ x ∈ rest, e.cost ≤ x.cost := fun x hx =>
          cost_le_of_key_le (popMin_min hpop x (hrest_sub x hx))
        obtain ⟨p1, p2, p3, p4, p5, p6, p7, p8, p9⟩ := popUpdate_fields st e rest
        by_cases hex : costBoundsExceeded (popUpdate st e rest) e.cost = true
        · rw [if_pos hex] at hrun
          obtain ⟨hout, hst, htr⟩ : PassOutcome.empty = out ∧
              popUpdate st e rest = stf ∧ [⟨e.depth, e.cost, false⟩] = tr := by
            simpa using hrun
          subst hout; subst hst
          refine ⟨p3, ?_, ?_, ?_⟩
          · intro x hx
            rw [p1] at hx
            exact hwfq x (hrest_sub x hx)
          · intro s c hc; exact absurd hc (by simp)
          · intro _
            refine ⟨p2, ?_⟩
            intro hsync
            right; right; right
            intro x hx
            rw [p1] at hx
            have hx_ge : e.cost ≤ x.cost := hrest_ge x hx
            have hmc : (popUpdate st e rest).mincost_bound =
              effMincost cfg (popUpdate st e rest) := by
              rw [p3, ← hsync]
              unfold effMincost
              cases cfg.funcs.mincost_bound_func with
              | none => rw [p3]
              | some v => rfl
            unfold costBoundsExceeded at hex
            rcases Bool.or_eq_true_iff.mp hex with hb | hb
            · rw [hmc] at hb
              exact Bool.or_eq_true_iff.mpr (Or.inl (boundLtB_mono hb hx_ge))
            · exact Bool.or_eq_true_iff.mpr (Or.inr (boundLtB_mono hb hx_ge))
        · rw [if_neg hex] at hrun
          obtain ⟨v1, v2, v3, v4, v5, v6, v7, v8⟩ :=
            visitUpdate_fields prev st e rest
          by_cases hgoal : cfg.funcs.goal_state_func e.state = true
          · rw [if_pos hgoal] at hrun
            obtain ⟨hout, hst, htr⟩ : PassOutcome.goal e.state e.cost = out ∧
                goalUpdate cfg prev st e rest = stf ∧
                [⟨e.depth, e.cost, true⟩] = tr := by
              simpa using hrun
            subst hout; subst hst
            obtain ⟨q1, q2, q3, q4⟩ := goalUpdate_fields cfg prev st e rest
            refine ⟨q2, ?_, ?_, ?_⟩
            · intro x hx
              rw [q1] at hx
              exact hwfq x (hrest_sub x hx)
            · intro s c hc
              obtain ⟨hs, hcost⟩ : e.state = s ∧ e.cost = c := by
                constructor <;> (cases hc; rfl)
              subst hcost
              refine ⟨fun c₀ hq => hq e hemem, ?_⟩
              intro x hx
              rw [q1] at hx
              exact hrest_ge x hx
            · intro hc; exact absurd hc.symm (by simp)
          · rw [if_neg hgoal] at hrun
            set st5 := enginePut cfg (cfg.funcs.next_state_func e.state)
              (e.depth + 1) (visitUpdate prev st e rest) with hst5
            obtain ⟨u1, u2, u3, u4, u5, u6⟩ := enginePut_fields cfg
              (cfg.funcs.next_state_func e.state) (e.depth + 1)
              (visitUpdate prev st e rest)
            cases hrec : passLoop cfg f (some e.depth) st5 with
            | none => rw [hrec] at hrun; simp at hrun
            | some q =>
              obtain ⟨out2, st6, tr2⟩ := q
              rw [hrec] at hrun
              obtain ⟨hout, hst, htr⟩ : out2 = out ∧ st6 = stf ∧
                  (⟨e.depth, e.cost, true⟩ : PopRecord) :: tr2 = tr := by
                simpa using hrun
              subst hout; subst hst
              have hwfq5 : WFQ cfg st5 := by
                intro x hx
                rw [hst5] at hx
                rcases enginePut_mem hx with hx | hx
                · rw [v1] at hx
                  exact hwfq x (hrest_sub x hx)
                · exact hx.2.1
              have hqlb5 : QLB e.cost st5 := by
                intro x hx
                rw [hst5] at hx
                rcases enginePut_mem hx with hx | hx
                · rw [v1] at hx
                  exact hrest_ge x hx
                · rw [hx.2.1, hwfq e hemem]
                  exact hmono e.state x.state hx.2.2
              obtain ⟨c1, c2, c3, c4⟩ := ih (some e.depth) st5 out2 st6 tr2
                hwfq5 hrec
              refine ⟨by rw [c1, u2, v3], c2, ?_, ?_⟩
              · intro s c hc
                obtain ⟨hb, hq⟩ := c3 s c hc
                refine ⟨fun c₀ hq0 => le_trans (hq0 e hemem) (hb e.cost hqlb5),
                  hq⟩
              · intro hc
                obtain ⟨hub, hdead⟩ := c4 hc
                refine ⟨by rw [hub, u1, v2], ?_⟩
                intro hsync
                apply hdead
                rw [u2, v3, ← hsync]
                unfold effMincost
                cases cfg.funcs.mincost_bound_func with
                | none => rw [u2, v3]
                | some v => rfl
    · rw [if_neg hg] at hrun
      by_cases hemp : st.pqueue.isEmpty = true
      · rw [if_pos hemp] at hrun
        obtain ⟨hout, hst, htr⟩ : PassOutcome.empty = out ∧
            ({ st with min_reached := true } : EngineState σ) = stf ∧
            ([] : List PopRecord) = tr := by
          simpa using hrun
        subst hout; subst hst
        refine ⟨rfl, ?_, ?_, ?_⟩
        · intro x hx; exact hwfq x hx
        · intro s c hc; exact absurd hc (by simp)
        · intro _
          exact ⟨rfl, fun _ => Or.inl (List.isEmpty_iff.mp hemp)⟩
      · rw [if_neg hemp] at hrun
        obtain ⟨hout, hst, htr⟩ : PassOutcome.empty = out ∧ st = stf ∧
            ([] : List PopRecord) = tr := by
          simpa using hrun
        subst hout; subst hst
        refine ⟨rfl, hwfq, ?_, ?_⟩
        · intro s c hc; exact absurd hc (by simp)
        · intro _
          refine ⟨rfl, ?_⟩
          intro hsync
          rw [loopGuard_iff] at hg
          push_neg at hg
          by_cases hq : st.pqueue = []
          · exact Or.inl hq
          · rcases Classical.em ((cfg.stop_at_first_min = false ∨
                st.min_reached = false)) with hsm | hsm
            · obtain ⟨m, hm, hmle⟩ := hg hq hsm
              exact Or.inr (Or.inr (Or.inl ⟨m, hm, hmle⟩))
            · push_neg at hsm
              obtain ⟨hs1, hs2⟩ := hsm
              have hb1 : cfg.stop_at_first_min = true := by
                cases h : cfg.stop_at_first_min
                · exact absurd h hs1
                · rfl
              have hb2 : st.min_reached = true := by
                cases h : st.min_reached
                · exact absurd h hs2
                · rfl
              exact Or.inr (Or.inl ⟨hb1, hb2⟩)

theorem refreshMincostBound_fields {σ : Type} (cfg : EngineCfg σ)
    (st : EngineState σ) :
    (refreshMincostBound cfg st).pqueue = st.pqueue ∧
    (refreshMincostBound cfg st).upperbound_cost = st.upperbound_cost ∧
    (refreshMincostBound cfg st).min_reached = st.min_reached ∧
    (refreshMincostBound cfg st).num_backjumps = st.num_backjumps ∧
    (refreshMincostBound cfg st).num_states_visited = st.num_states_visited ∧
    effMincost cfg (refreshMincostBound cfg st) =
      (refreshMincostBound cfg st).mincost_bound ∧
    effMincost cfg (refreshMincostBound cfg st) = effMincost cfg st := by
  unfold refreshMincostBound effMincost
  cases cfg.funcs.mincost_bound_func with
  | none => exact ⟨rfl, rfl, rfl, rfl, rfl, rfl, rfl⟩
  | some v => exact ⟨rfl, rfl, rfl, rfl, rfl, rfl, rfl⟩

/-- Soundness of one `optimization_pass` call. -/
theorem pass_sound {σ : Type} (cfg : EngineCfg σ) (hmono : MonoCost cfg)
    (fuel : ℕ) (st : EngineState σ) (out : PassOutcome σ)
    (stf : EngineState σ) (tr : List PopRecord)
    (hwfq : WFQ cfg st)
    (hrun : optimizationPass cfg fuel st = some (out, stf, tr)) :
    WFQ cfg stf ∧
    (∀ s c, out = PassOutcome.goal s c →
      (∀ c₀, QLB c₀ st → c₀ ≤ c) ∧ QLB c stf) ∧
    (out = PassOutcome.empty →
      stf.upperbound_cost = st.upperbound_cost ∧ Dead cfg stf) := by
  obtain ⟨r1, r2, r3, r4, r5, r6, r7⟩ := refreshMincostBound_fields cfg st
  unfold optimizationPass at hrun
  have hwfq1 : WFQ cfg (refreshMincostBound cfg st) := by
    intro x hx
    rw [r1] at hx
    exact hwfq x hx
  obtain ⟨c1, c2, c3, c4⟩ := passLoop_sound cfg hmono fuel none
    (refreshMincostBound cfg st) out stf tr hwfq1 hrun
  refine ⟨c2, ?_, ?_⟩
  · intro s c hc
    obtain ⟨hb, hq⟩ := c3 s c hc
    refine ⟨?_, hq⟩
    intro c₀ hq0
    apply hb
    intro x hx
    rw [r1] at hx
    exact hq0 x hx
  · intro hc
    obtain ⟨hub, hdead⟩ := c4 hc
    exact ⟨by rw [hub, r2], hdead r6⟩

/-- A dead engine is absorbing for `optimization_pass`: the call returns the
empty result, the upper bound is untouched, and the engine stays dead. -/
theorem dead_pass {σ : Type} (cfg : EngineCfg σ) (fuel : ℕ)
    (st : EngineState σ) (out : PassOutcome σ) (stf : EngineState σ)
    (tr : List PopRecord) (hdead : Dead cfg st)
    (hrun : optimizationPass cfg fuel st = some (out, stf, tr)) :
    out = PassOutcome.empty ∧ Dead cfg stf := by
  obtain ⟨r1, r2, r3, r4, r5, r6, r7⟩ := refreshMincostBound_fields cfg st
  unfold optimizationPass at hrun
  set st1 := refreshMincostBound cfg st with hst1
  have hdead1 : Dead cfg st1 := by
    rcases hdead with h | h | h | h
    · exact Or.inl (by rw [r1]; exact h)
    · exact Or.inr (Or.inl ⟨h.1, by rw [r3]; exact h.2⟩)
    · obtain ⟨m, hm, hle⟩ := h
      exact Or.inr (Or.inr (Or.inl ⟨m, hm, by rw [r4]; exact hle⟩))
    · refine Or.inr (Or.inr (Or.inr ?_))
      intro x hx
      rw [r1] at hx
      rw [r7, r2]
      exact h x hx
  clear hdead
  cases fuel with
  | zero => simp [passLoop] at hrun
  | succ f =>
    rw [passLoop] at hrun
    by_cases hg : loopGuard cfg st1 = true
    · rw [if_pos hg] at hrun
      obtain ⟨hne, hsm, hbj⟩ := (loopGuard_iff cfg st1).mp hg
      have hexc : ∀ e ∈ st1.pqueue,
          (boundLtB (effMincost cfg st1) e.cost ||
            boundLtB st1.upperbound_cost e.cost) = true := by
        rcases hdead1 with h | h | h | h
        · exact absurd h hne
        · rcases hsm with hs | hs
          · rw [h.1] at hs; exact absurd hs (by simp)
          · rw [h.2] at hs; exact absurd hs (by simp)
        · obtain ⟨m, hm, hle⟩ := h
          exact absurd (hbj m hm) (not_lt.mpr hle)
        · exact h
      cases hpop : popMin st1.pqueue with
      | none => exact absurd (popMin_eq_none.mp hpop) hne
      | some p =>
        obtain ⟨e, rest⟩ := p
        rw [hpop] at hrun
        dsimp only at hrun
        obtain ⟨p1, p2, p3, p4, p5, p6, p7, p8, p9⟩ :=
          popUpdate_fields st1 e rest
        have hrest_sub : ∀ x ∈ rest, x ∈ st1.pqueue := popMin_subset hpop
        have hex : costBoundsExceeded (popUpdate st1 e rest) e.cost = true := by
          unfold costBoundsExceeded
          rw [p2, p3, ← r6]
          exact hexc e (popMin_mem hpop)
        rw [if_pos hex] at hrun
        obtain ⟨hout, hst, htr⟩ : PassOutcome.empty = out ∧
            popUpdate st1 e rest = stf ∧
            [⟨e.depth, e.cost, false⟩] = tr := by
          simpa using hrun
        subst hout; subst hst
        refine ⟨rfl, ?_⟩
        refine Or.inr (Or.inr (Or.inr ?_))
        intro x hx
        rw [p1] at hx
        have hmc : effMincost cfg (popUpdate st1 e rest) =
            effMincost cfg st1 := by
          unfold effMincost
          cases cfg.funcs.mincost_bound_func with
          | none => dsimp only; rw [p3]
          | some v => rfl
        rw [hmc, p2]
        exact hexc x (hrest_sub x hx)
    · rw [if_neg hg] at hrun
      by_cases hemp : st1.pqueue.isEmpty = true
      · rw [if_pos hemp] at hrun
        obtain ⟨hout, hst, htr⟩ : PassOutcome.empty = out ∧
            ({ st1 with min_reached := true } : EngineState σ) = stf ∧
            ([] : List PopRecord) = tr := by
          simpa using hrun
        subst hout; subst hst
        exact ⟨rfl, Or.inl (List.isEmpty_iff.mp hemp)⟩
      · rw [if_neg hemp] at hrun
        obtain ⟨hout, hst, htr⟩ : PassOutcome.empty = out ∧ st1 = stf ∧
            ([] : List PopRecord) = tr := by
          simpa using hrun
        subst hout; subst hst
        exact ⟨rfl, hdead1⟩

/-- Once the engine is dead, a run of passes produces no goals. -/
theorem runPasses_dead {σ : Type} (cfg : EngineCfg σ) (fuel : ℕ) :
    ∀ (n : ℕ) (st : EngineState σ)
      (res : List (PassOutcome σ × List PopRecord)) (stf : EngineState σ),
    Dead cfg st →
    runPasses cfg fuel n st = some (res, stf) →
    goalCosts (res.map Prod.fst) = [] := by
  intro n
  induction n with
  | zero =>
    intro st res stf hdead hrun
    obtain ⟨h1, h2⟩ : ([] : List (PassOutcome σ × List PopRecord)) = res ∧
        st = stf := by simpa [runPasses] using hrun
    subst h1
    simp [goalCosts]
  | succ n ih =>
    intro st res stf hdead hrun
    rw [runPasses] at hrun
    cases hp : optimizationPass cfg fuel st with
    | none => rw [hp] at hrun; simp at hrun
    | some q =>
      obtain ⟨out, st1, tr⟩ := q
      rw [hp] at hrun
      dsimp only at hrun
      cases hr : runPasses cfg fuel n st1 with
      | none => rw [hr] at hrun; simp at hrun
      | some q2 =>
        obtain ⟨outs, st2⟩ := q2
        rw [hr] at hrun
        obtain ⟨h1, h2⟩ : (out, tr) :: outs = res ∧ st2 = stf := by
          simpa using hrun
        subst h1
        obtain ⟨hout, hdead1⟩ := dead_pass cfg fuel st out st1 tr hdead hp
        subst hout
        simpa [goalCosts] using ih st1 outs st2 hdead1 hr

/-- Goal costs over a run of passes form a non-decreasing chain bounded
below by any queue lower bound, provided successor costs dominate parent
costs. -/
theorem runPasses_chain {σ : Type} (cfg : EngineCfg σ) (hmono : MonoCost cfg)
    (fuel : ℕ) :
    ∀ (n : ℕ) (st : EngineState σ)
      (res : List (PassOutcome σ × List PopRecord)) (stf : EngineState σ)
      (c : Cost),
    WFQ cfg st → QLB c st →
    runPasses cfg fuel n st = some (res, stf) →
    List.Chain' (· ≤ ·) (goalCosts (res.map Prod.fst)) ∧
    (∀ x ∈ goalCosts (res.map Prod.fst), c ≤ x) := by
  intro n
  induction n with
  | zero =>
    intro st res stf c hwfq hqlb hrun
    obtain ⟨h1, h2⟩ : ([] : List (PassOutcome σ × List PopRecord)) = res ∧
        st = stf := by simpa [runPasses] using hrun
    subst h1
    simp [goalCosts]
  | succ n ih =>
    intro st res stf c hwfq hqlb hrun
    rw [runPasses] at hrun
    cases hp : optimizationPass cfg fuel st with
    | none => rw [hp] at hrun; simp at hrun
    | some q =>
      obtain ⟨out, st1, tr⟩ := q
      rw [hp] at hrun
      dsimp only at hrun
      cases hr : runPasses cfg fuel n st1 with
      | none => rw [hr] at hrun; simp at hrun
      | some q2 =>
        obtain ⟨outs, st2⟩ := q2
        rw [hr] at hrun
        obtain ⟨h1, h2⟩ : (out, tr) :: outs = res ∧ st2 = stf := by
          simpa using hrun
        subst h1
        obtain ⟨hwfq1, hgoal, hempty⟩ := pass_sound cfg hmono fuel st out st1
          tr hwfq hp
        cases out with
        | goal s cg =>
          obtain ⟨hging, hqlb1⟩ := hgoal s cg rfl
          obtain ⟨hchain, hbound⟩ := ih st1 outs st2 cg hwfq1 hqlb1 hr
          have hcons : goalCosts (((PassOutcome.goal s cg, tr) :: outs).map
              Prod.fst) = cg :: goalCosts (outs.map Prod.fst) := by
            simp [goalCosts]
          rw [hcons]
          constructor
          · rw [List.chain'_cons']
            refine ⟨?_, hchain⟩
            intro y hy
            exact hbound y (List.mem_of_mem_head? hy)
          · intro x hx
            rcases List.mem_cons.mp hx with hx | hx
            · exact hx ▸ hging c hqlb
            · exact le_trans (hging c hqlb) (hbound x hx)
        | empty =>
          obtain ⟨hub, hdead⟩ := hempty rfl
          have hrest : goalCosts (outs.map Prod.fst) = [] :=
            runPasses_dead cfg fuel n st1 outs st2 hdead hr
          have hcons : goalCosts (((PassOutcome.empty, tr) :: outs).map
              Prod.fst) = goalCosts (outs.map Prod.fst) := by
            simp [goalCosts]
          rw [hcons, hrest]
          simp

/-- The engine queue of a freshly initialized driver is well-formed: every
entry carries its `cost_func` value. -/
theorem driverInit_wfq {σ : Type} (cfg : EngineCfg σ) (initialStates : List σ)
    (greedy : Option σ) : WFQ cfg (driverInit cfg initialStates greedy).engine := by
  have hbase : WFQ cfg (initializeEngine cfg initialStates (engineInit0 σ)) := by
    intro x hx
    unfold initializeEngine at hx
    rcases enginePut_mem hx with hx | hx
    · simp at hx
    · exact hx.2.1
  unfold driverInit
  cases greedy with
  | none => exact hbase
  | some g =>
    intro x hx
    dsimp only at hx
    obtain ⟨g1, g2, g3, g4, g5, g6, g7⟩ := updateUpperboundGoalState_fields cfg
      g (initializeEngine cfg initialStates (engineInit0 σ))
    rw [g1] at hx
    exact hbase x hx

/-- After the first driver pass has set `goal_state_returned`, the costs
returned by further passes form a chain bounded by any engine-queue lower
bound, and a dead engine produces no further costs. -/
theorem runDriver_returned {σ : Type} (cfg : EngineCfg σ)
    (hmono : MonoCost cfg) (fuel : ℕ) :
    ∀ (n : ℕ) (d : DriverState σ) (res : List (DriverResult σ))
      (df : DriverState σ),
    d.goal_state_returned = true →
    WFQ cfg d.engine →
    runDriverPasses cfg fuel n d = some (res, df) →
    (∀ c, QLB c d.engine →
      List.Chain' (· ≤ ·) (driverCosts res) ∧ ∀ x ∈ driverCosts res, c ≤ x) ∧
    (Dead cfg d.engine → driverCosts res = []) := by
  intro n
  induction n with
  | zero =>
    intro d res df hret hwfq hrun
    obtain ⟨h1, h2⟩ : ([] : List (DriverResult σ)) = res ∧ d = df := by
      simpa [runDriverPasses] using hrun
    subst h1
    simp [driverCosts]
  | succ n ih =>
    intro d res df hret hwfq hrun
    rw [runDriverPasses] at hrun
    cases hp : driverPass cfg fuel d with
    | none => rw [hp] at hrun; simp at hrun
    | some q =>
      obtain ⟨r, d1⟩ := q
      have hp2 := hp
      unfold driverPass at hp2
      cases hpe : optimizationPass cfg fuel d.engine with
      | none => rw [hpe] at hp2; simp at hp2
      | some q2 =>
        obtain ⟨out, est, tr⟩ := q2
        rw [hpe] at hp2
        dsimp only at hp2
        obtain ⟨hwfq1, hgoal, hempty⟩ := pass_sound cfg hmono fuel d.engine
          out est tr hwfq hpe
        cases out with
        | goal gs gc =>
          obtain ⟨hr1, hd1⟩ : DriverResult.ok (some gs) (some gc) = r ∧
              (⟨est, d.greedy_goal_state, true⟩ : DriverState σ) = d1 := by
            simpa using hp2
          subst hr1; subst hd1
          rw [hp] at hrun
          dsimp only at hrun
          cases hr : runDriverPasses cfg fuel n
              (⟨est, d.greedy_goal_state, true⟩ : DriverState σ) with
          | none => rw [hr] at hrun; simp at hrun
          | some q3 =>
            obtain ⟨outs, d2⟩ := q3
            rw [hr] at hrun
            obtain ⟨h1, h2⟩ : DriverResult.ok (some gs) (some gc) :: outs
                = res ∧ d2 = df := by simpa using hrun
            subst h1
            obtain ⟨hging, hqlb1⟩ := hgoal gs gc rfl
            obtain ⟨ihq, ihd⟩ := ih ⟨est, d.greedy_goal_state, true⟩ outs d2
              rfl hwfq1 hr
            have hcons : driverCosts ((DriverResult.ok (some gs)
                (some gc) : DriverResult σ) :: outs) = gc :: driverCosts outs := by
              simp [driverCosts]
            constructor
            · intro c hqlb
              obtain ⟨hchain, hbound⟩ := ihq gc hqlb1
              rw [hcons]
              constructor
              · rw [List.chain'_cons']
                refine ⟨?_, hchain⟩
                intro y hy
                exact hbound y (List.mem_of_mem_head? hy)
              · intro x hx
                rcases List.mem_cons.mp hx with hx | hx
                · exact hx ▸ hging c hqlb
                · exact le_trans (hging c hqlb) (hbound x hx)
            · intro hdead
              obtain ⟨hcontra, _⟩ := dead_pass cfg fuel d.engine
                (PassOutcome.goal gs gc) est tr hdead hpe
              exact absurd hcontra (by simp)
        | empty =>
          rw [if_pos hret] at hp2
          obtain ⟨hr1, hd1⟩ : (DriverResult.ok none none : DriverResult σ) = r ∧
              (⟨est, d.greedy_goal_state, true⟩ : DriverState σ) = d1 := by
            simpa using hp2
          subst hr1; subst hd1
          rw [hp] at hrun
          dsimp only at hrun
          cases hr : runDriverPasses cfg fuel n
              (⟨est, d.greedy_goal_state, true⟩ : DriverState σ) with
          | none => rw [hr] at hrun; simp at hrun
          | some q3 =>
            obtain ⟨outs, d2⟩ := q3
            rw [hr] at hrun
            obtain ⟨h1, h2⟩ : (DriverResult.ok none none : DriverResult σ) :: outs
                = res ∧ d2 = df := by simpa using hrun
            subst h1
            obtain ⟨hub, hdead1⟩ := hempty rfl
            obtain ⟨ihq, ihd⟩ := ih ⟨est, d.greedy_goal_state, true⟩ outs d2
              rfl hwfq1 hr
            have hrest : driverCosts outs = [] := ihd hdead1
            have hcons : driverCosts ((DriverResult.ok none none : DriverResult σ) ::
                outs) = driverCosts outs := by
              simp [driverCosts]
            rw [hcons, hrest]
            constructor
            · intro c _
              simp
            · intro _
              rfl

/-- C1: for two runs of the search over identical inputs (same callback
bundle, same initial state list, and settings agreeing on the seed and
`max_backjumps` — the only settings fields the engine consumes), the full
sequences of outcomes of successive `optimization_pass` calls coincide: the
engine's only randomness is the priority queue's tie-break generator, which
is initialized from the settings seed. -/
theorem c1_determinism {σ : Type} (funcs : SearchFuncs σ)
    (s1 s2 : OptimizationSettings) (stop : Bool) (inits : List σ)
    (fuel n : ℕ)
    (hseed : s1.seed = s2.seed)
    (hbj : s1.max_backjumps = s2.max_backjumps) :
    runPasses (mkEngineCfg funcs s1 stop) fuel n
      (initializeEngine (mkEngineCfg funcs s1 stop) inits (engineInit0 σ)) =
    runPasses (mkEngineCfg funcs s2 stop) fuel n
      (initializeEngine (mkEngineCfg funcs s2 stop) inits (engineInit0 σ)) := by
  have hcfg : mkEngineCfg funcs s1 stop = mkEngineCfg funcs s2 stop := by
    unfold mkEngineCfg
    rw [hseed, hbj]
  rw [hcfg]

/-- Witness for C1 at a concrete configuration. -/
theorem c1_determinism_witness :
    runPasses (mkEngineCfg natFuncs natSettings false) 2 2
      (initializeEngine (mkEngineCfg natFuncs natSettings false) [0, 1]
        (engineInit0 ℕ)) =
    runPasses (mkEngineCfg natFuncs natSettings false) 2 2
      (initializeEngine (mkEngineCfg natFuncs natSettings false) [0, 1]
        (engineInit0 ℕ)) :=
  c1_determinism natFuncs natSettings natSettings false [0, 1] 2 2 rfl rfl

/-- C2: over successive calls to the driver's `optimization_pass`, the
sequence of returned cost tuples is non-decreasing under lexicographic
order, given that every successor state costs at least its parent. -/
theorem c2_goal_costs_monotone {σ : Type} (cfg : EngineCfg σ)
    (hmono : MonoCost cfg) (fuel n : ℕ) (initialStates : List σ)
    (greedy : Option σ) (res : List (DriverResult σ)) (df : DriverState σ)
    (hrun : runDriverPasses cfg fuel n (driverInit cfg initialStates greedy)
      = some (res, df)) :
    List.Chain' (· ≤ ·) (driverCosts res) := by
  have hwfq0 : WFQ cfg (driverInit cfg initialStates greedy).engine :=
    driverInit_wfq cfg initialStates greedy
  cases n with
  | zero =>
    obtain ⟨h1, h2⟩ : ([] : List (DriverResult σ)) = res ∧
        driverInit cfg initialStates greedy = df := by
      simpa [runDriverPasses] using hrun
    subst h1
    simp [driverCosts]
  | succ n =>
    rw [runDriverPasses] at hrun
    cases hp : driverPass cfg fuel (driverInit cfg initialStates greedy) with
    | none => rw [hp] at hrun; simp at hrun
    | some q =>
      obtain ⟨r, d1⟩ := q
      have hp2 := hp
      unfold driverPass at hp2
      cases hpe : optimizationPass cfg fuel
          (driverInit cfg initialStates greedy).engine with
      | none => rw [hpe] at hp2; simp at hp2
      | some q2 =>
        obtain ⟨out, est, tr⟩ := q2
        rw [hpe] at hp2
        dsimp only at hp2
        obtain ⟨hwfq1, hgoal, hempty⟩ := pass_sound cfg hmono fuel
          (driverInit cfg initialStates greedy).engine out est tr hwfq0 hpe
        cases out with
        | goal gs gc =>
          obtain ⟨hr1, hd1⟩ : DriverResult.ok (some gs) (some gc) = r ∧
              (⟨est, greedy, true⟩ : DriverState σ) = d1 := by
            simpa [driverInit] using hp2
          subst hr1; subst hd1
          rw [hp] at hrun
          dsimp only at hrun
          cases hr : runDriverPasses cfg fuel n
              (⟨est, greedy, true⟩ : DriverState σ) with
          | none => rw [hr] at hrun; simp at hrun
          | some q3 =>
            obtain ⟨outs, d2⟩ := q3
            rw [hr] at hrun
            obtain ⟨h1, h2⟩ : DriverResult.ok (some gs) (some gc) :: outs
                = res ∧ d2 = df := by simpa using hrun
            subst h1
            obtain ⟨hging, hqlb1⟩ := hgoal gs gc rfl
            obtain ⟨ihq, ihd⟩ := runDriver_returned cfg hmono fuel n
              ⟨est, greedy, true⟩ outs d2 rfl hwfq1 hr
            obtain ⟨hchain, hbound⟩ := ihq gc hqlb1
            have hcons : driverCosts ((DriverResult.ok (some gs)
                (some gc) : DriverResult σ) :: outs) =
                gc :: driverCosts outs := by
              simp [driverCosts]
            rw [hcons]
            rw [List.chain'_cons']
            refine ⟨?_, hchain⟩
            intro y hy
            exact hbound y (List.mem_of_mem_head? hy)
        | empty =>
          obtain ⟨hub, hdead1⟩ := hempty rfl
          have hret : (driverInit cfg initialStates greedy).goal_state_returned
              = false := rfl
          rw [if_neg (by rw [hret]; simp)] at hp2
          cases hgr : greedy with
          | none =>
            rw [show (driverInit cfg initialStates greedy).greedy_goal_state
                = greedy from rfl, hgr] at hp2
            obtain ⟨hr1, hd1⟩ : DriverResult.crash = r ∧ _ = d1 := by
              simpa using hp2
            subst hr1
            rw [hp] at hrun
            dsimp only at hrun
            obtain ⟨h1, h2⟩ : [(DriverResult.crash : DriverResult σ)] = res ∧ d1 = df := by
              simpa using hrun
            subst h1
            simp [driverCosts]
          | some g =>
            rw [show (driverInit cfg initialStates greedy).greedy_goal_state
                = greedy from rfl, hgr] at hp2
            obtain ⟨hr1, hd1⟩ : DriverResult.ok (some g)
                (some (cfg.funcs.cost_func g)) = r ∧
                (⟨est, some g, true⟩ : DriverState σ) = d1 := by
              simpa using hp2
            subst hr1; subst hd1
            rw [hp] at hrun
            dsimp only at hrun
            cases hr : runDriverPasses cfg fuel n
                (⟨est, some g, true⟩ : DriverState σ) with
            | none => rw [hr] at hrun; simp at hrun
            | some q3 =>
              obtain ⟨outs, d2⟩ := q3
              rw [hr] at hrun
              obtain ⟨h1, h2⟩ : DriverResult.ok (some g)
                  (some (cfg.funcs.cost_func g)) :: outs = res ∧ d2 = df := by
                simpa using hrun
              subst h1
              obtain ⟨ihq, ihd⟩ := runDriver_returned cfg hmono fuel n
                ⟨est, some g, true⟩ outs d2 rfl hwfq1 hr
              have hrest : driverCosts outs = [] := ihd hdead1
              have hcons : driverCosts ((DriverResult.ok (some g)
                  (some (cfg.funcs.cost_func g)) : DriverResult σ) :: outs) =
                  cfg.funcs.cost_func g :: driverCosts outs := by
                simp [driverCosts]
              rw [hcons, hrest]
              simp

/-- Witness for C2 at a concrete configuration: the engine yields nothing on
the first call and the greedy result is returned. -/
theorem c2_goal_costs_monotone_witness :
    List.Chain' (· ≤ ·)
      (driverCosts [DriverResult.ok (some 0) (some (mkCost 0 0))]) :=
  c2_goal_costs_monotone natCfg
    (by intro s s' h; simp [natCfg, mkEngineCfg, natFuncs] at h) 1 1 []
    (some 0) [DriverResult.ok (some 0) (some (mkCost 0 0))]
    ⟨⟨[], 0, 0, some (mkCost 100 ⊤), none, true, 0, 0, 0, 0,
      some (0, 0, 0, 0)⟩, some 0, true⟩ (by decide)

/-- C3: `put` counts every generated successor in `num_next_states`,
enqueues (in `num_enqueues` and on the queue, at the supplied depth with
their computed costs) exactly those successors whose cost survives the
upper-bound test, which keeps a successor iff no upper bound is set or its
cost is at most the bound (costs equal to the bound are kept). -/
theorem c3_put_spec {σ : Type} (cfg : EngineCfg σ) (states : List σ)
    (depth : ℕ) (st : EngineState σ) :
    (enginePut cfg states depth st).num_next_states =
      st.num_next_states + states.length ∧
    (enginePut cfg states depth st).num_enqueues = st.num_enqueues +
      (states.filter fun s =>
        keepCost st.upperbound_cost (cfg.funcs.cost_func s)).length ∧
    (∀ c, keepCost st.upperbound_cost c = true ↔
      (st.upperbound_cost = none ∨
        ∃ u, st.upperbound_cost = some u ∧ c ≤ u)) ∧
    ∃ new : List (PQEntry σ),
      (enginePut cfg states depth st).pqueue = st.pqueue ++ new ∧
      new.map PQEntry.state = (states.filter fun s =>
        keepCost st.upperbound_cost (cfg.funcs.cost_func s)) ∧
      ∀ e ∈ new, e.depth = depth ∧ e.cost = cfg.funcs.cost_func e.state := by
  refine ⟨?_, ?_, ?_, ?_⟩
  · exact (enginePut_fields cfg states depth st).2.2.2.2.2
  · unfold enginePut
    rw [putStates_enqueues]
  · intro c
    unfold keepCost
    cases st.upperbound_cost with
    | none => simp
    | some u => simp
  · unfold enginePut
    obtain ⟨new, hq, hmap, hprops⟩ := putStates_pqueue cfg depth states
      { st with num_next_states := st.num_next_states + states.length }
    exact ⟨new, hq, hmap, hprops⟩

/-- Defining equation of `bjCountFrom` on a non-empty depth list. -/
theorem bjCountFrom_cons (prev : Option ℕ) (d : ℕ) (rest : List ℕ) :
    bjCountFrom prev (d :: rest) =
      (if backjumpTest prev d then 1 else 0) + bjCountFrom (some d) rest := rfl

/-- The search loop adds to `num_backjumps` exactly the backjump count of
the depths of the pops that survived the cost-bounds check, threaded from
the incoming `prev_depth`. -/
theorem passLoop_backjumps {σ : Type} (cfg : EngineCfg σ) :
    ∀ (fuel : ℕ) (prev : Option ℕ) (st : EngineState σ)
      (out : PassOutcome σ) (stf : EngineState σ) (tr : List PopRecord),
    passLoop cfg fuel prev st = some (out, stf, tr) →
    stf.num_backjumps = st.num_backjumps + bjCountFrom prev (countedDepths tr) := by
  intro fuel
  induction fuel with
  | zero =>
    intro prev st out stf tr hrun
    simp [passLoop] at hrun
  | succ f ih =>
    intro prev st out stf tr hrun
    rw [passLoop] at hrun
    by_cases hg : loopGuard cfg st = true
    · rw [if_pos hg] at hrun
      cases hpop : popMin st.pqueue with
      | none =>
        exact absurd (popMin_eq_none.mp hpop) ((loopGuard_iff cfg st).mp hg).1
      | some p =>
        obtain ⟨e, rest⟩ := p
        rw [hpop] at hrun
        dsimp only at hrun
        by_cases hex : costBoundsExceeded (popUpdate st e rest) e.cost = true
        · rw [if_pos hex] at hrun
          obtain ⟨hout, hst, htr⟩ : PassOutcome.empty = out ∧
              popUpdate st e rest = stf ∧
              [⟨e.depth, e.cost, false⟩] = tr := by
            simpa using hrun
          subst hst; subst htr
          rw [(popUpdate_fields st e rest).2.2.2.2.1]
          simp [countedDepths, bjCountFrom]
        · rw [if_neg hex] at hrun
          by_cases hgoal : cfg.funcs.goal_state_func e.state = true
          · rw [if_pos hgoal] at hrun
            obtain ⟨hout, hst, htr⟩ : PassOutcome.goal e.state e.cost = out ∧
                goalUpdate cfg prev st e rest = stf ∧
                [⟨e.depth, e.cost, true⟩] = tr := by
              simpa using hrun
            subst hst; subst htr
            rw [(goalUpdate_fields cfg prev st e rest).2.2.2]
            simp [countedDepths, bjCountFrom]
          · rw [if_neg hgoal] at hrun
            cases hrec : passLoop cfg f (some e.depth)
                (enginePut cfg (cfg.funcs.next_state_func e.state)
                  (e.depth + 1) (visitUpdate prev st e rest)) with
            | none => rw [hrec] at hrun; simp at hrun
            | some q =>
              obtain ⟨out2, st6, tr2⟩ := q
              rw [hrec] at hrun
              obtain ⟨hout, hst, htr⟩ : out2 = out ∧ st6 = stf ∧
                  (⟨e.depth, e.cost, true⟩ : PopRecord) :: tr2 = tr := by
                simpa using hrun
              subst hout; subst hst; subst htr
              have hih := ih (some e.depth)
                (enginePut cfg (cfg.funcs.next_state_func e.state)
                  (e.depth + 1) (visitUpdate prev st e rest)) out2 st6 tr2 hrec
              have he : (enginePut cfg (cfg.funcs.next_state_func e.state)
                  (e.depth + 1) (visitUpdate prev st e rest)).num_backjumps =
                  st.num_backjumps +
                    (if backjumpTest prev e.depth then 1 else 0) := by
                rw [(enginePut_fields cfg (cfg.funcs.next_state_func e.state)
                  (e.depth + 1) (visitUpdate prev st e rest)).2.2.2.2.1,
                  (visitUpdate_fields prev st e rest).2.2.2.2.1]
              have hcd : countedDepths
                  ((⟨e.depth, e.cost, true⟩ : PopRecord) :: tr2) =
                  e.depth :: countedDepths tr2 := by
                simp [countedDepths]
              rw [hcd, bjCountFrom_cons, hih, he]
              omega
    · rw [if_neg hg] at hrun
      by_cases hemp : st.pqueue.isEmpty = true
      · rw [if_pos hemp] at hrun
        obtain ⟨hout, hst, htr⟩ : PassOutcome.empty = out ∧
            ({ st with min_reached := true } : EngineState σ) = stf ∧
            ([] : List PopRecord) = tr := by
          simpa using hrun
        subst hst; subst htr
        simp [countedDepths, bjCountFrom]
      · rw [if_neg hemp] at hrun
        obtain ⟨hout, hst, htr⟩ : PassOutcome.empty = out ∧ st = stf ∧
            ([] : List PopRecord) = tr := by
          simpa using hrun
        subst hst; subst htr
        simp [countedDepths, bjCountFrom]

/-- A whole `optimization_pass` call adds to `num_backjumps` the
per-pass backjump count of its surviving pops, with `prev_depth` starting
at `None`. -/
theorem pass_backjumps {σ : Type} (cfg : EngineCfg σ) (fuel : ℕ)
    (st : EngineState σ) (out : PassOutcome σ) (stf : EngineState σ)
    (tr : List PopRecord)
    (hrun : optimizationPass cfg fuel st = some (out, stf, tr)) :
    stf.num_backjumps = st.num_backjumps + bjCountFrom none (countedDepths tr) := by
  unfold optimizationPass at hrun
  rw [passLoop_backjumps cfg fuel none (refreshMincostBound cfg st) out stf tr
    hrun]
  rw [(refreshMincostBound_fields cfg st).2.2.2.1]

/-- Over a run of passes, `num_backjumps` accumulates the per-pass counts
(each pass restarts its `prev_depth` at `None`). -/
theorem runPasses_backjumps {σ : Type} (cfg : EngineCfg σ) (fuel : ℕ) :
    ∀ (n : ℕ) (st : EngineState σ)
      (res : List (PassOutcome σ × List PopRecord)) (stf : EngineState σ),
    runPasses cfg fuel n st = some (res, stf) →
    stf.num_backjumps = st.num_backjumps +
      (res.map fun p => bjCountFrom none (countedDepths p.2)).sum := by
  intro n
  induction n with
  | zero =>
    intro st res stf hrun
    obtain ⟨h1, h2⟩ : ([] : List (PassOutcome σ × List PopRecord)) = res ∧
        st = stf := by simpa [runPasses] using hrun
    subst h1; subst h2
    simp
  | succ n ih =>
    intro st res stf hrun
    rw [runPasses] at hrun
    cases hp : optimizationPass cfg fuel st with
    | none => rw [hp] at hrun; simp at hrun
    | some q =>
      obtain ⟨out, st1, tr⟩ := q
      rw [hp] at hrun
      dsimp only at hrun
      cases hr : runPasses cfg fuel n st1 with
      | none => rw [hr] at hrun; simp at hrun
      | some q2 =>
        obtain ⟨outs, st2⟩ := q2
        rw [hr] at hrun
        obtain ⟨h1, h2⟩ : (out, tr) :: outs = res ∧ st2 = stf := by
          simpa using hrun
        subst h1; subst h2
        rw [ih st1 outs st2 hr, pass_backjumps cfg fuel st out st1 tr hp]
        simp
        omega

/-- C4 (amended): over the whole lifetime of an engine since `initialize`,
`num_backjumps` equals the sum over passes of the per-pass backjump counts:
within each pass, among the pops that survived the cost-bounds check, those
whose depth is at most the depth of the previous surviving pop of the same
pass (each pass restarts its `prev_depth` at `None`, so the first pop of a
pass never counts, even when it is no deeper than the last pop of the
previous pass). -/
theorem c4_backjump_accounting {σ : Type} (cfg : EngineCfg σ) (fuel n : ℕ)
    (inits : List σ) (st0 : EngineState σ)
    (res : List (PassOutcome σ × List PopRecord)) (stf : EngineState σ)
    (hrun : runPasses cfg fuel n (initializeEngine cfg inits st0) =
      some (res, stf)) :
    stf.num_backjumps =
      (res.map fun p => bjCountFrom none (countedDepths p.2)).sum := by
  have h0 : (initializeEngine cfg inits st0).num_backjumps = 0 := by
    unfold initializeEngine
    rw [(enginePut_fields cfg inits 0 _).2.2.2.2.1]
  rw [runPasses_backjumps cfg fuel n (initializeEngine cfg inits st0) res stf
    hrun, h0, Nat.zero_add]

/-- Witness for C4's amended accounting at a concrete two-pass run. -/
theorem c4_backjump_accounting_witness :
    stfC4.num_backjumps =
      (resC4.map fun p => bjCountFrom none (countedDepths p.2)).sum :=
  c4_backjump_accounting natCfg 2 2 [0, 1] (engineInit0 ℕ) resC4 stfC4
    (by decide)

/-- Counterexample to C4 as stated: a two-pass run in which the engine's
`num_backjumps` stays 0, while the number of pops whose depth is at most the
depth of the immediately preceding pop of the engine's lifetime (crossing
the pass boundary) is 1 — the code resets `prev_depth` to `None` at the
start of every `optimization_pass`. -/
theorem c4_counterexample :
    (runPasses natCfg 2 2 (initializeEngine natCfg [0, 1]
      (engineInit0 ℕ))).map
      (fun r => (r.2.num_backjumps, bjCountFrom none (lifetimeDepths r.1))) =
      some (0, 1) := by decide

/-- The minimum-reached flag can only be set during a pass by a popped cost
reaching the upper bound, or by the loop-exit branch when the queue has
drained. -/
theorem passLoop_minPreserve {σ : Type} (cfg : EngineCfg σ) :
    ∀ (fuel : ℕ) (prev : Option ℕ) (st : EngineState σ)
      (stf : EngineState σ) (tr : List PopRecord),
    passLoop cfg fuel prev st = some (PassOutcome.empty, stf, tr) →
    st.min_reached = false →
    (∀ p ∈ tr, ubLeB st.upperbound_cost p.cost = false) →
    stf.pqueue ≠ [] →
    stf.min_reached = false := by
  intro fuel
  induction fuel with
  | zero =>
    intro prev st stf tr hrun
    simp [passLoop] at hrun
  | succ f ih =>
    intro prev st stf tr hrun hmin htr hne
    rw [passLoop] at hrun
    by_cases hg : loopGuard cfg st = true
    · rw [if_pos hg] at hrun
      cases hpop : popMin st.pqueue with
      | none =>
        exact absurd (popMin_eq_none.mp hpop) ((loopGuard_iff cfg st).mp hg).1
      | some p =>
        obtain ⟨e, rest⟩ := p
        rw [hpop] at hrun
        dsimp only at hrun
        by_cases hex : costBoundsExceeded (popUpdate st e rest) e.cost = true
        · rw [if_pos hex] at hrun
          obtain ⟨hst, htrr⟩ : popUpdate st e rest = stf ∧
              [(⟨e.depth, e.cost, false⟩ : PopRecord)] = tr := by
            simpa using hrun
          subst hst; subst htrr
          rw [(popUpdate_fields st e rest).2.2.2.2.2.2.2.2, hmin]
          have := htr ⟨e.depth, e.cost, false⟩ (by simp)
          simpa using this
        · rw [if_neg hex] at hrun
          by_cases hgoal : cfg.funcs.goal_state_func e.state = true
          · rw [if_pos hgoal] at hrun
            simp at hrun
          · rw [if_neg hgoal] at hrun
            cases hrec : passLoop cfg f (some e.depth)
                (enginePut cfg (cfg.funcs.next_state_func e.state)
                  (e.depth + 1) (visitUpdate prev st e rest)) with
            | none => rw [hrec] at hrun; simp at hrun
            | some q =>
              obtain ⟨out2, st6, tr2⟩ := q
              rw [hrec] at hrun
              obtain ⟨hout, hst, htrr⟩ : out2 = PassOutcome.empty ∧
                  st6 = stf ∧
                  (⟨e.depth, e.cost, true⟩ : PopRecord) :: tr2 = tr := by
                simpa [eq_comm] using hrun
              subst hout; subst hst; subst htrr
              have hue : ubLeB st.upperbound_cost e.cost = false := by
                have := htr ⟨e.depth, e.cost, true⟩ (by simp)
                simpa using this
              have hm5 : (enginePut cfg (cfg.funcs.next_state_func e.state)
                  (e.depth + 1) (visitUpdate prev st e rest)).min_reached =
                  false := by
                rw [(enginePut_fields cfg (cfg.funcs.next_state_func e.state)
                  (e.depth + 1) (visitUpdate prev st e rest)).2.2.1,
                  (visitUpdate_fields prev st e rest).2.2.2.2.2.2.2, hmin, hue]
                rfl
              have hu5 : (enginePut cfg (cfg.funcs.next_state_func e.state)
                  (e.depth + 1) (visitUpdate prev st e rest)).upperbound_cost =
                  st.upperbound_cost := by
                rw [(enginePut_fields cfg (cfg.funcs.next_state_func e.state)
                  (e.depth + 1) (visitUpdate prev st e rest)).1,
                  (visitUpdate_fields prev st e rest).2.1]
              apply ih (some e.depth)
                (enginePut cfg (cfg.funcs.next_state_func e.state)
                  (e.depth + 1) (visitUpdate prev st e rest)) st6 tr2 hrec hm5
                ?_ hne
              intro p hp
              rw [hu5]
              exact htr p (List.mem_cons_of_mem _ hp)
    · rw [if_neg hg] at hrun
      by_cases hemp : st.pqueue.isEmpty = true
      · rw [if_pos hemp] at hrun
        obtain ⟨hst, htrr⟩ : ({ st with min_reached := true } :
            EngineState σ) = stf ∧ ([] : List PopRecord) = tr := by
          simpa using hrun
        subst hst
        exact absurd (List.isEmpty_iff.mp hemp) hne
      · rw [if_neg hemp] at hrun
        obtain ⟨hst, htrr⟩ : st = stf ∧ ([] : List PopRecord) = tr := by
          simpa using hrun
        subst hst
        exact hmin

/-- C5 (amended): when `optimization_pass` stops because the backjump
budget is exhausted (finite `max_backjumps`, `num_backjumps` at the budget,
queue still non-empty), it returns the empty result `(None, None)` without
touching the engine beyond the min-cost-bound refresh — in particular the
loop-exit branch does not set `min_reached`.  Moreover, for any pass that
returns the empty result with a non-empty queue, `minimum_reached()` still
reports `False` provided it was `False` on entry and no popped cost of the
pass reached the upper bound (`update_minimum_reached` can independently
latch the flag during the pass otherwise). -/
theorem c5_budget_exceeded {σ : Type} (cfg : EngineCfg σ) :
    (∀ (fuel : ℕ) (st : EngineState σ) (m : ℕ),
      cfg.max_backjumps = some m → m ≤ st.num_backjumps → st.pqueue ≠ [] →
      optimizationPass cfg (fuel + 1) st =
        some (PassOutcome.empty, refreshMincostBound cfg st, []) ∧
      minimumReached (refreshMincostBound cfg st) = minimumReached st) ∧
    (∀ (fuel : ℕ) (st stf : EngineState σ) (tr : List PopRecord),
      optimizationPass cfg fuel st = some (PassOutcome.empty, stf, tr) →
      st.min_reached = false →
      (∀ p ∈ tr, ubLeB st.upperbound_cost p.cost = false) →
      stf.pqueue ≠ [] →
      minimumReached stf = false) := by
  constructor
  · intro fuel st m hm hle hne
    obtain ⟨r1, r2, r3, r4, r5, r6, r7⟩ := refreshMincostBound_fields cfg st
    have hguard : loopGuard cfg (refreshMincostBound cfg st) = false := by
      unfold loopGuard
      rw [hm]
      dsimp only
      have : decide ((refreshMincostBound cfg st).num_backjumps < m)
          = false := by
        rw [r4]
        exact decide_eq_false (not_lt.mpr hle)
      rw [this]
      simp
    have hnemp : (refreshMincostBound cfg st).pqueue.isEmpty = false := by
      rw [r1]
      cases h : st.pqueue with
      | nil => exact absurd h hne
      | cons a l => rfl
    constructor
    · unfold optimizationPass
      rw [passLoop, if_neg (by simp [hguard]), if_neg (by simp [hnemp])]
    · unfold minimumReached
      exact r3
  · intro fuel st stf tr hrun hmin htr hne
    obtain ⟨r1, r2, r3, r4, r5, r6, r7⟩ := refreshMincostBound_fields cfg st
    unfold optimizationPass at hrun
    unfold minimumReached
    apply passLoop_minPreserve cfg fuel none (refreshMincostBound cfg st) stf
      tr hrun (by rw [r3]; exact hmin) ?_ hne
    intro p hp
    rw [r2]
    exact htr p hp

/-- Witness for C5's amended statement: an engine whose backjump budget is
used up returns the empty result and leaves `min_reached` alone. -/
theorem c5_budget_exceeded_witness :
    optimizationPass natCfgC5 1 stateC5b =
      some (PassOutcome.empty, refreshMincostBound natCfgC5 stateC5b, []) ∧
    minimumReached (refreshMincostBound natCfgC5 stateC5b) =
      minimumReached stateC5b :=
  (c5_budget_exceeded natCfgC5).1 0 stateC5b 1 rfl (by decide) (by decide)

/-- The executable `max_wire_cuts_gamma` agrees with the specification
formula `⌈log₂(γ + 1) − 1⌉` read over the reals. -/
theorem maxWireCutsGamma_eq_ceil (g : ℚ) (hg : 1 ≤ g) :
    maxWireCutsGamma g = ⌈Real.logb 2 ((g : ℝ) + 1) - 1⌉ := by
  unfold maxWireCutsGamma
  have hgr : (1 : ℝ) ≤ (g : ℝ) := by exact_mod_cast hg
  have hq : (1 : ℚ) ≤ (g + 1) / 2 := by linarith
  have hqr : (1 : ℝ) ≤ (((g + 1) / 2 : ℚ) : ℝ) := by exact_mod_cast hq
  have hstep : Real.logb 2 ((g : ℝ) + 1) - 1 =
      Real.logb 2 ((((g + 1) / 2 : ℚ)) : ℝ) := by
    push_cast
    rw [Real.logb_div (by linarith) (by norm_num),
      Real.logb_self_eq_one (by norm_num)]
  rw [hstep, show (2 : ℝ) = ((2 : ℕ) : ℝ) by norm_num,
    Real.ceil_logb_natCast (by linarith),
    Int.clog_of_one_le_right _ hq, Int.clog_of_one_le_right _ hqr]
  have h1 : (⌈((g + 1) / 2 : ℚ)⌉₊ : ℤ) = ⌈((g + 1) / 2 : ℚ)⌉ :=
    Int.natCast_ceil_eq_ceil (by linarith)
  have h2 : (⌈(((g + 1) / 2 : ℚ) : ℝ)⌉₊ : ℤ) = ⌈(((g + 1) / 2 : ℚ) : ℝ)⌉ :=
    Int.natCast_ceil_eq_ceil (by linarith)
  have h3 : ⌈(((g + 1) / 2 : ℚ) : ℝ)⌉ = ⌈((g + 1) / 2 : ℚ)⌉ :=
    Rat.ceil_cast _
  have h4 : ⌈((g + 1) / 2 : ℚ)⌉₊ = ⌈(((g + 1) / 2 : ℚ) : ℝ)⌉₊ := by omega
  rw [h4]

/-- C6: the next-state function raises for every state whose current gate
acts on more than two qubits; for a two-qubit gate it never raises, and its
successors are produced by the `TwoQubitGates` action group filtered by the
gate's cut constraints. -/
theorem c6_next_state_arity {σ : Type} (get_search_level : σ → ℕ) (state : σ)
    (fa : CutOptimizationFuncArgs σ) (gate_spec : GateSpec)
    (hgs : fa.entangling_gates[get_search_level state]? = some gate_spec) :
    (2 < gate_spec.gate.qubits.length →
      cutOptimizationNextStateFunc get_search_level state fa = Except.error
        "In the current version, only the cutting of two qubit gates is supported.") ∧
    (gate_spec.gate.qubits.length = 2 →
      cutOptimizationNextStateFunc get_search_level state fa = Except.ok
        (((getActionSubset (getGroup fa.search_actions "TwoQubitGates")
            gate_spec.constraints).map fun action =>
          action.next_state state gate_spec fa.qpu_width).flatten)) := by
  unfold cutOptimizationNextStateFunc
  rw [hgs]
  dsimp only
  constructor
  · intro h
    rw [if_neg (by omega)]
  · intro h
    rw [if_pos h]

/-- Witness for C6: a concrete two-qubit gate yields the filtered action
successors, and a concrete three-qubit gate raises. -/
theorem c6_next_state_arity_witness :
    cutOptimizationNextStateFunc (fun _ : ℕ => 0) 0
      ⟨[⟨0, ⟨"cx", [0, 1]⟩, none⟩], ⟨[]⟩, none, 4⟩ = Except.ok
      (((getActionSubset (getGroup (⟨[]⟩ : ActionNames ℕ) "TwoQubitGates")
          none).map fun action =>
        action.next_state 0 ⟨0, ⟨"cx", [0, 1]⟩, none⟩ 4).flatten) ∧
    cutOptimizationNextStateFunc (fun _ : ℕ => 0) 0
      ⟨[⟨0, ⟨"ccx", [0, 1, 2]⟩, none⟩], ⟨[]⟩, none, 4⟩ = Except.error
      "In the current version, only the cutting of two qubit gates is supported." :=
  ⟨(c6_next_state_arity (fun _ : ℕ => 0) 0
      ⟨[⟨0, ⟨"cx", [0, 1]⟩, none⟩], ⟨[]⟩, none, 4⟩ ⟨0, ⟨"cx", [0, 1]⟩, none⟩
      (by decide)).2 rfl,
   (c6_next_state_arity (fun _ : ℕ => 0) 0
      ⟨[⟨0, ⟨"ccx", [0, 1, 2]⟩, none⟩], ⟨[]⟩, none, 4⟩
      ⟨0, ⟨"ccx", [0, 1, 2]⟩, none⟩ (by decide)).1 (by decide)⟩

/-- C7: the wire-cut cap of the driver is the minimum of the circuit bound
(the sum of the arities of the multi-qubit gates) and the real-log formula
`⌈log₂(γ + 1) − 1⌉` at the greedy goal's upper-bound gamma when the greedy
pre-pass found a goal, else at `max_gamma`; and when the greedy pre-pass
failed with `max_gamma` unset, only the circuit bound is used. -/
theorem c7_max_wire_cuts {σ : Type} (circuit : List CircuitGate)
    (greedy : Option σ) (upper_bound_gamma : σ → ℚ) (max_gamma : Option ℚ)
    (hg : ∀ s, greedy = some s → 1 ≤ upper_bound_gamma s)
    (hm : ∀ q, max_gamma = some q → 1 ≤ q) :
    (∀ s, greedy = some s →
      cutOptimizationMaxWireCuts circuit greedy upper_bound_gamma max_gamma =
        min (maxWireCutsCircuit circuit : ℤ)
          ⌈Real.logb 2 ((upper_bound_gamma s : ℝ) + 1) - 1⌉) ∧
    (greedy = none → ∀ q, max_gamma = some q →
      cutOptimizationMaxWireCuts circuit greedy upper_bound_gamma max_gamma =
        min (maxWireCutsCircuit circuit : ℤ)
          ⌈Real.logb 2 ((q : ℝ) + 1) - 1⌉) ∧
    (greedy = none → max_gamma = none →
      cutOptimizationMaxWireCuts circuit greedy upper_bound_gamma max_gamma =
        (maxWireCutsCircuit circuit : ℤ)) ∧
    maxWireCutsCircuit circuit =
      ((getMultiQubitGatesCI circuit).map fun gs =>
        gs.gate.qubits.length).sum := by
  refine ⟨?_, ?_, ?_, rfl⟩
  · intro s hs
    subst hs
    unfold cutOptimizationMaxWireCuts
    dsimp only
    rw [maxWireCutsGamma_eq_ceil (upper_bound_gamma s) (hg s rfl)]
  · intro hgr q hq
    subst hgr; subst hq
    unfold cutOptimizationMaxWireCuts
    dsimp only
    rw [maxWireCutsGamma_eq_ceil q (hm q rfl)]
  · intro hgr hq
    subst hgr; subst hq
    rfl

/-- Witness for C7 at a concrete circuit and greedy goal. -/
theorem c7_max_wire_cuts_witness :
    cutOptimizationMaxWireCuts [CircuitGate.elem ⟨"cx", [0, 1]⟩ none]
        (some (0 : ℕ)) (fun _ => 3) none =
      min (maxWireCutsCircuit [CircuitGate.elem ⟨"cx", [0, 1]⟩ none] : ℤ)
        ⌈Real.logb 2 (((3 : ℚ) : ℝ) + 1) - 1⌉ :=
  (c7_max_wire_cuts [CircuitGate.elem ⟨"cx", [0, 1]⟩ none] (some 0)
    (fun _ => 3) none
    (fun s hs => by cases hs; decide)
    (fun q hq => by cases hq)).1 0 rfl

/-- C8: the driver starts with `goal_state_returned = False`; on a call in
which the engine yields nothing, it returns the greedy pre-pass result with
that result's cost as computed by the cost function when no goal state has
been returned yet (presupposing the greedy pre-pass found a goal — with a
`None` greedy result Python would raise inside `cost_func`), and the empty
result `(None, None)` on every later such call; `goal_state_returned` is
set in both cases. -/
theorem c8_driver_fallback {σ : Type} (cfg : EngineCfg σ) :
    (∀ (inits : List σ) (greedy : Option σ),
      (driverInit cfg inits greedy).goal_state_returned = false) ∧
    (∀ (fuel : ℕ) (d : DriverState σ) (g : σ) (est : EngineState σ)
      (tr : List PopRecord),
      d.goal_state_returned = false →
      d.greedy_goal_state = some g →
      optimizationPass cfg fuel d.engine =
        some (PassOutcome.empty, est, tr) →
      driverPass cfg fuel d =
        some (DriverResult.ok (some g) (some (cfg.funcs.cost_func g)),
          ⟨est, some g, true⟩)) ∧
    (∀ (fuel : ℕ) (d : DriverState σ) (est : EngineState σ)
      (tr : List PopRecord),
      d.goal_state_returned = true →
      optimizationPass cfg fuel d.engine =
        some (PassOutcome.empty, est, tr) →
      driverPass cfg fuel d =
        some (DriverResult.ok none none,
          ⟨est, d.greedy_goal_state, true⟩)) := by
  refine ⟨fun inits greedy => rfl, ?_, ?_⟩
  · intro fuel d g est tr hret hgr hpass
    unfold driverPass
    rw [hpass]
    dsimp only
    rw [if_neg (by rw [hret]; simp), hgr]
  · intro fuel d est tr hret hpass
    unfold driverPass
    rw [hpass]
    dsimp only
    rw [if_pos hret]

/-- Witness for C8: a concrete driver whose engine queue is empty returns
the greedy result on the first call and the empty result afterwards. -/
theorem c8_driver_fallback_witness :
    (driverInit natCfg [] (some 5)).goal_state_returned = false ∧
    driverPass natCfg 1 ⟨engineInit0 ℕ, some 5, false⟩ =
      some (DriverResult.ok (some 5) (some (natCfg.funcs.cost_func 5)),
        ⟨⟨[], 0, 0, none, none, true, 0, 0, 0, 0, none⟩, some 5, true⟩) ∧
    driverPass natCfg 1 ⟨engineInit0 ℕ, some 5, true⟩ =
      some (DriverResult.ok none none,
        ⟨⟨[], 0, 0, none, none, true, 0, 0, 0, 0, none⟩, some 5, true⟩) :=
  ⟨(c8_driver_fallback natCfg).1 [] (some 5),
   (c8_driver_fallback natCfg).2.1 1 ⟨engineInit0 ℕ, some 5, false⟩ 5
     ⟨[], 0, 0, none, none, true, 0, 0, 0, 0, none⟩ [] rfl rfl (by decide),
   (c8_driver_fallback natCfg).2.2 1 ⟨engineInit0 ℕ, some 5, true⟩
     ⟨[], 0, 0, none, none, true, 0, 0, 0, 0, none⟩ [] rfl (by decide)⟩

/-- Counterexample to C5 as stated: a pass on an engine with
`max_backjumps = 1` that terminates with the budget used up and the queue
non-empty (so termination is due to the backjump budget), returns
`(None, None)` — and yet `minimum_reached()` reports `True`, because a
popped cost equal to the upper bound latched `min_reached` through
`update_minimum_reached` earlier in the same pass. -/
theorem c5_counterexample :
    natCfgC5.max_backjumps = some 1 ∧
    stateC5.min_reached = false ∧
    (optimizationPass natCfgC5 5 stateC5).map
      (fun r => (r.1, r.2.1.pqueue.length, r.2.1.num_backjumps,
        minimumReached r.2.1)) = some (PassOutcome.empty, 1, 1, true) := by
  refine ⟨rfl, by decide, by decide⟩

/-- Lookup hits the head key. -/
theorem alookup_cons_self {α γ : Type} [DecidableEq α] (k : α) (v : γ)
    (l : List (α × γ)) : alookup ((k, v) :: l) k = some v := by
  simp [alookup]

/-- Lookup skips a head with a different key. -/
theorem alookup_cons_ne {α γ : Type} [DecidableEq α] {k a : α} (v : γ)
    (l : List (α × γ)) (h : k ≠ a) :
    alookup ((k, v) :: l) a = alookup l a := by
  simp [alookup, h]

/-- A successful lookup means the key occurs in the list. -/
theorem mem_of_alookup_isSome {α γ : Type} [DecidableEq α]
    {l : List (α × γ)} {a : α} (h : (alookup l a).isSome = true) :
    a ∈ l.map Prod.fst := by
  induction l with
  | nil => simp [alookup] at h
  | cons p rest ih =>
    obtain ⟨k, v⟩ := p
    by_cases hk : k = a
    · subst hk; simp
    · rw [alookup_cons_ne v rest hk] at h
      simp [ih h]

/-- Keys at least `n` split into the key `n` and the keys at least
`n + 1`. -/
theorem filter_le_partition (K : List ℕ) (n : ℕ) :
    (K.filter fun k => decide (n ≤ k)).length =
      (K.filter fun k => decide (k = n)).length +
        (K.filter fun k => decide (n + 1 ≤ k)).length := by
  induction K with
  | nil => rfl
  | cons a K ih =>
    simp only [List.filter_cons]
    by_cases h1 : n ≤ a
    · by_cases h2 : a = n
      · subst h2
        have h3 : ¬(a + 1 ≤ a) := by omega
        simp [h1, h3, ih]
        omega
      · have h3 : n + 1 ≤ a := by omega
        simp [h1, h2, h3, ih]
        omega
    · have h2 : ¬(a = n) := by omega
      have h3 : ¬(n + 1 ≤ a) := by omega
      simp [h1, h2, h3, ih]

/-- A present key is counted by the equality filter. -/
theorem filter_eq_pos {K : List ℕ} {n : ℕ} (h : n ∈ K) :
    1 ≤ (K.filter fun k => decide (k = n)).length := by
  have hm : n ∈ K.filter fun k => decide (k = n) :=
    List.mem_filter.mpr ⟨h, by simp⟩
  cases hf : K.filter fun k => decide (k = n) with
  | nil => rw [hf] at hm; simp at hm
  | cons a l => simp

/-- The free-ID scan finds an unassigned ID whenever its budget exceeds
the number of assigned IDs at or above the start. -/
theorem findFree_free {β : Type} (ids : List (ℕ × β)) :
    ∀ (fuel n : ℕ),
    ((ids.map Prod.fst).filter fun k => decide (n ≤ k)).length < fuel →
    alookup ids (findFree ids fuel n) = none := by
  intro fuel
  induction fuel with
  | zero => intro n h; omega
  | succ f ih =>
    intro n h
    unfold findFree
    by_cases hs : (alookup ids n).isSome = true
    · rw [if_pos hs]
      apply ih
      have hmem : n ∈ ids.map Prod.fst := mem_of_alookup_isSome hs
      have hpart := filter_le_partition (ids.map Prod.fst) n
      have hcount := filter_eq_pos hmem
      omega
    · rw [if_neg hs]
      exact Option.not_isSome_iff_eq_none.mp hs

/-- The ID allocated by `getID` for an unknown name is fresh. -/
theorem getID_alloc_fresh {β : Type} (m : NameToIDMap β) :
    alookup m.ID_dict
      (findFree m.ID_dict (m.ID_dict.length + 1) m.next_ID) = none := by
  apply findFree_free
  have h1 := List.length_filter_le (fun k => decide (m.next_ID ≤ k))
    (m.ID_dict.map Prod.fst)
  have h2 : (m.ID_dict.map Prod.fst).length = m.ID_dict.length :=
    List.length_map _ _
  omega

/-- The empty map is well-formed. -/
theorem mapWF_empty (β : Type) [DecidableEq β] :
    MapWF (emptyNameToIDMap β) := by
  intro n i
  simp [emptyNameToIDMap, alookup]

/-- `getID` preserves well-formedness, binds the requested name to the
returned ID, and keeps every existing binding. -/
theorem getID_spec {β : Type} [DecidableEq β] (m : NameToIDMap β) (x : β)
    (hwf : MapWF m) :
    MapWF (getID m x).2 ∧
    alookup (getID m x).2.item_dict x = some (getID m x).1 ∧
    (∀ (y : β) (i : ℕ), alookup m.item_dict y = some i →
      alookup (getID m x).2.item_dict y = some i) := by
  unfold getID
  cases hx : alookup m.item_dict x with
  | some i =>
    exact ⟨hwf, hx, fun y j hy => hy⟩
  | none =>
    dsimp only
    set f := findFree m.ID_dict (m.ID_dict.length + 1) m.next_ID with hf
    have hfresh : alookup m.ID_dict f = none := getID_alloc_fresh m
    refine ⟨?_, alookup_cons_self x f m.item_dict, ?_⟩
    · intro n i
      by_cases hn : x = n
      · subst hn
        rw [alookup_cons_self]
        by_cases hi : f = i
        · subst hi
          rw [alookup_cons_self]
          simp
        · rw [alookup_cons_ne x m.ID_dict hi]
          constructor
          · intro h
            exact absurd (Option.some.inj h) hi
          · intro h
            exact absurd ((hwf x i).mpr h) (by rw [hx]; simp)
      · rw [alookup_cons_ne f m.item_dict hn]
        by_cases hi : f = i
        · subst hi
          rw [alookup_cons_self]
          constructor
          · intro h
            have := (hwf n f).mp h
            rw [hfresh] at this
            exact absurd this (by simp)
          · intro h
            exact absurd (Option.some.inj h) hn
        · rw [alookup_cons_ne x m.ID_dict hi]
          exact hwf n i
    · intro y i hy
      have hxy : x ≠ y := by
        intro he
        subst he
        rw [hx] at hy
        exact absurd hy (by simp)
      rw [alookup_cons_ne f m.item_dict hxy]
      exact hy

/-- `defineID` preserves well-formedness. -/
theorem defineID_wf {β : Type} [DecidableEq β] (m : NameToIDMap β)
    (item_ID : ℕ) (item_name : β) (m2 : NameToIDMap β) (hwf : MapWF m)
    (hd : defineID m item_ID item_name = some m2) : MapWF m2 := by
  unfold defineID at hd
  by_cases hc : ((alookup m.ID_dict item_ID).isSome ||
      (alookup m.item_dict item_name).isSome) = true
  · rw [if_pos hc] at hd
    simp at hd
  · rw [if_neg hc] at hd
    obtain ⟨hid, hname⟩ : alookup m.ID_dict item_ID = none ∧
        alookup m.item_dict item_name = none := by
      rcases Bool.or_eq_false_iff.mp (Bool.not_eq_true _ |>.mp hc) with ⟨h1, h2⟩
      exact ⟨Option.not_isSome_iff_eq_none.mp (by simp [h1]),
        Option.not_isSome_iff_eq_none.mp (by simp [h2])⟩
    obtain rfl : (⟨m.next_ID, (item_name, item_ID) :: m.item_dict,
        (item_ID, item_name) :: m.ID_dict⟩ : NameToIDMap β) = m2 := by
      simpa using hd
    intro n i
    by_cases hn : item_name = n
    · subst hn
      rw [alookup_cons_self]
      by_cases hi : item_ID = i
      · subst hi
        rw [alookup_cons_self]
        simp
      · rw [alookup_cons_ne item_name m.ID_dict hi]
        constructor
        · intro h
          exact absurd (Option.some.inj h) hi
        · intro h
          exact absurd ((hwf item_name i).mpr h) (by rw [hname]; simp)
    · rw [alookup_cons_ne item_ID m.item_dict hn]
      by_cases hi : item_ID = i
      · subst hi
        rw [alookup_cons_self]
        constructor
        · intro h
          have := (hwf n item_ID).mp h
          rw [hid] at this
          exact absurd this (by simp)
        · intro h
          exact absurd (Option.some.inj h) hn
      · rw [alookup_cons_ne item_name m.ID_dict hi]
        exact hwf n i

/-- `getID` of a name already in the dictionary returns its ID and leaves
the map untouched. -/
theorem getID_of_lookup {β : Type} [DecidableEq β] (m : NameToIDMap β)
    (x : β) (i : ℕ) (h : alookup m.item_dict x = some i) :
    getID m x = (i, m) := by
  unfold getID
  rw [h]

/-- C10: on a well-formed map, `getID` is idempotent (a second call with
the same name returns the same ID and does not change the map), sequential
`getID` calls with distinct names return distinct IDs, `getName` inverts
`getID`, and `defineID` keeps the map well-formed (so the above also hold
after pre-assignments, which preserve well-formedness). -/
theorem c10_name_map {β : Type} [DecidableEq β] (m : NameToIDMap β)
    (hwf : MapWF m) (x y : β) (hxy : x ≠ y) :
    getID (getID m x).2 x = ((getID m x).1, (getID m x).2) ∧
    (getID (getID m x).2 y).1 ≠ (getID m x).1 ∧
    getName (getID m x).2 (getID m x).1 = some x ∧
    (∀ (i : ℕ) (n : β) (m2 : NameToIDMap β),
      defineID m i n = some m2 → MapWF m2) := by
  obtain ⟨hwf1, hbind1, hpers1⟩ := getID_spec m x hwf
  refine ⟨getID_of_lookup (getID m x).2 x (getID m x).1 hbind1, ?_, ?_, ?_⟩
  · intro heq
    obtain ⟨hwf2, hbind2, hpers2⟩ := getID_spec (getID m x).2 y hwf1
    have hx2 : alookup (getID (getID m x).2 y).2.item_dict x =
        some (getID m x).1 := hpers2 x (getID m x).1 hbind1
    have hy2 : alookup (getID (getID m x).2 y).2.item_dict y =
        some (getID (getID m x).2 y).1 := hbind2
    rw [heq] at hy2
    have h1 := (hwf2 x (getID m x).1).mp hx2
    have h2 := (hwf2 y (getID m x).1).mp hy2
    rw [h1] at h2
    exact hxy (Option.some.inj h2)
  · unfold getName
    exact (hwf1 x (getID m x).1).mp hbind1
  · intro i n m2 hd
    exact defineID_wf m i n m2 hwf hd

/-- Witness for C10 on the empty map with two distinct names. -/
theorem c10_name_map_witness :
    getID (getID (emptyNameToIDMap ℕ) 3).2 3 =
      ((getID (emptyNameToIDMap ℕ) 3).1, (getID (emptyNameToIDMap ℕ) 3).2) ∧
    (getID (getID (emptyNameToIDMap ℕ) 3).2 4).1 ≠
      (getID (emptyNameToIDMap ℕ) 3).1 ∧
    getName (getID (emptyNameToIDMap ℕ) 3).2 (getID (emptyNameToIDMap ℕ) 3).1
      = some 3 ∧
    (∀ (i : ℕ) (n : ℕ) (m2 : NameToIDMap ℕ),
      defineID (emptyNameToIDMap ℕ) i n = some m2 → MapWF m2) :=
  c10_name_map (emptyNameToIDMap ℕ) (mapWF_empty ℕ) 3 4 (by decide)

/-- On a map where the wire is registered, `sortOrder`'s leaf `getID` call
returns the stored ID (and would not mutate the map). -/
theorem registered_getID {β : Type} [DecidableEq β] (m : NameToIDMap β) :
    ∀ (u : WireName β), registeredIn m u = true →
    alookup m.item_dict (wireBase u) = some ((getID m (wireBase u)).1) := by
  intro u
  induction u with
  | base b =>
    intro h
    obtain ⟨i, hi⟩ := Option.isSome_iff_exists.mp h
    show alookup m.item_dict b = some ((getID m b).1)
    rw [hi, getID_of_lookup m b i hi]
  | cut w ih =>
    intro h
    exact ih h

/-- Closed form of the sort key: a wire cut `k` times off original qubit
ID `B` sorts at `B + 1 - (1/2)^k`. -/
theorem sortOrder_closed {β : Type} [DecidableEq β] (m : NameToIDMap β) :
    ∀ w : WireName β,
    sortOrder m w =
      ((getID m (wireBase w)).1 : ℚ) + 1 - (1 / 2) ^ cutDepth w := by
  intro w
  induction w with
  | base b =>
    simp [sortOrder, wireBase, cutDepth]
  | cut w ih =>
    have hpos : (0 : ℚ) < (1 / 2) ^ cutDepth w := by positivity
    have hle : ((1 : ℚ) / 2) ^ cutDepth w ≤ 1 :=
      pow_le_one₀ (by norm_num) (by norm_num)
    have hfl : ⌊sortOrder m w⌋ = ((getID m (wireBase w)).1 : ℤ) := by
      rw [ih, sub_eq_add_neg, add_assoc, Int.floor_nat_add,
        show ((getID m (wireBase w)).1 : ℤ) =
          ((getID m (wireBase w)).1 : ℤ) + 0 by ring]
      congr 1
      rw [Int.floor_eq_zero_iff]
      constructor
      · linarith
      · linarith
    show (⌊sortOrder m w⌋ : ℚ) + (sortOrder m w - (⌊sortOrder m w⌋ : ℚ)) / 2
        + 1 / 2 = _
    rw [hfl, ih]
    push_cast
    rw [wireBase, cutDepth, pow_succ]
    ring

/-- The sort key's integer part is the original qubit's ID. -/
theorem sortOrder_floor {β : Type} [DecidableEq β] (m : NameToIDMap β)
    (w : WireName β) :
    ⌊sortOrder m w⌋ = ((getID m (wireBase w)).1 : ℤ) := by
  have hpos : (0 : ℚ) < (1 / 2) ^ cutDepth w := by positivity
  have hle : ((1 : ℚ) / 2) ^ cutDepth w ≤ 1 :=
    pow_le_one₀ (by norm_num) (by norm_num)
  rw [sortOrder_closed, sub_eq_add_neg, add_assoc, Int.floor_nat_add,
    show ((getID m (wireBase w)).1 : ℤ) =
      ((getID m (wireBase w)).1 : ℤ) + 0 by ring]
  congr 1
  rw [Int.floor_eq_zero_iff]
  constructor
  · linarith
  · linarith

/-- C9: on a well-formed map, the sort key of the cut wire `("cut", w)` of
a registered wire `w` lies strictly between `sortOrder(w)` and
`⌊sortOrder(w)⌋ + 1`; consequently no registered wire at all sorts strictly
between a wire and its cut wire — in the default wire-name mapping, which
numbers wires by ascending sort key, the cut wire's numeric name is
adjacent to its parent's (in particular, only iterated cut-descendants of
the same original qubit could come between, and none do). -/
theorem c9_sort_order {β : Type} [DecidableEq β] (m : NameToIDMap β)
    (hwf : MapWF m) (w u : WireName β)
    (hwreg : registeredIn m w = true) (hureg : registeredIn m u = true) :
    (sortOrder m w < sortOrder m (WireName.cut w) ∧
      sortOrder m (WireName.cut w) < (⌊sortOrder m w⌋ : ℚ) + 1) ∧
    ¬(sortOrder m w < sortOrder m u ∧
      sortOrder m u < sortOrder m (WireName.cut w)) := by
  have hclw := sortOrder_closed m w
  have hclcw := sortOrder_closed m (WireName.cut w)
  have hclu := sortOrder_closed m u
  have hposw : (0 : ℚ) < (1 / 2) ^ cutDepth w := by positivity
  have hlew : ((1 : ℚ) / 2) ^ cutDepth w ≤ 1 :=
    pow_le_one₀ (by norm_num) (by norm_num)
  have hposu : (0 : ℚ) < (1 / 2) ^ cutDepth u := by positivity
  have hleu : ((1 : ℚ) / 2) ^ cutDepth u ≤ 1 :=
    pow_le_one₀ (by norm_num) (by norm_num)
  have hbcw : wireBase (WireName.cut w) = wireBase w := rfl
  have hdcw : cutDepth (WireName.cut w) = cutDepth w + 1 := rfl
  constructor
  · constructor
    · rw [hclw, hclcw, hbcw, hdcw, pow_succ]
      nlinarith
    · rw [hclcw, sortOrder_floor, hbcw, hdcw, pow_succ]
      push_cast
      nlinarith
  · rintro ⟨h1, h2⟩
    rw [hclw, hclu] at h1
    rw [hclu, hclcw, hbcw, hdcw, pow_succ] at h2
    set Bw := ((getID m (wireBase w)).1 : ℚ) with hBw
    set Bu := ((getID m (wireBase u)).1 : ℚ) with hBu
    set tw := ((1 : ℚ) / 2) ^ cutDepth w with htw
    set tu := ((1 : ℚ) / 2) ^ cutDepth u with htu
    have hBuw : (getID m (wireBase u)).1 = (getID m (wireBase w)).1 := by
      have hq1 : Bw < Bu + 1 := by nlinarith
      have hq2 : Bu < Bw + 1 := by nlinarith
      rw [hBw, hBu] at hq1 hq2
      have hn1 : (getID m (wireBase w)).1 < (getID m (wireBase u)).1 + 1 := by
        exact_mod_cast hq1
      have hn2 : (getID m (wireBase u)).1 < (getID m (wireBase w)).1 + 1 := by
        exact_mod_cast hq2
      omega
    have hbase : wireBase u = wireBase w := by
      have hu := registered_getID m u hureg
      have hw := registered_getID m w hwreg
      rw [hBuw] at hu
      have h1' := (hwf (wireBase u) ((getID m (wireBase w)).1)).mp hu
      have h2' := (hwf (wireBase w) ((getID m (wireBase w)).1)).mp hw
      rw [h1'] at h2'
      exact Option.some.inj h2'
    rw [hbase] at hBu
    rw [hBw, ← hBu] at h1 h2
    have htulu : tu < tw := by linarith
    have htwlu : tw * (1 / 2) < tu := by linarith
    have hk1 : cutDepth w < cutDepth u := by
      rw [htw, htu] at htulu
      exact (pow_lt_pow_iff_right_of_lt_one₀ (by norm_num) (by norm_num)).mp
        htulu
    have hk2 : cutDepth u < cutDepth w + 1 := by
      have : ((1 : ℚ) / 2) ^ (cutDepth w + 1) < tu := by
        rw [pow_succ]
        exact htwlu
      rw [htu] at this
      exact (pow_lt_pow_iff_right_of_lt_one₀ (by norm_num) (by norm_num)).mp
        this
    omega

/-- Witness for C9 on a concrete two-qubit map with a cut wire. -/
theorem c9_sort_order_witness :
    (sortOrder mapC9 (WireName.base 7) <
        sortOrder mapC9 (WireName.cut (WireName.base 7)) ∧
      sortOrder mapC9 (WireName.cut (WireName.base 7)) <
        (⌊sortOrder mapC9 (WireName.base 7)⌋ : ℚ) + 1) ∧
    ¬(sortOrder mapC9 (WireName.base 7) < sortOrder mapC9 (WireName.base 8) ∧
      sortOrder mapC9 (WireName.base 8) <
        sortOrder mapC9 (WireName.cut (WireName.base 7))) :=
  c9_sort_order mapC9
    (by
      have h1 := (getID_spec (emptyNameToIDMap ℕ) 7 (mapWF_empty ℕ)).1
      exact (getID_spec (getID (emptyNameToIDMap ℕ) 7).2 8 h1).1)
    (WireName.base 7) (WireName.base 8) (by decide) (by decide)

end CKT
